import Mathlib

/-!
# Chat broker (labs/lab02/backend/chatcore/chatcore.go)

A shallow embedding of the message broker: the `Message` and `Broker` types, the
registry operations `RegisterUser` / `UnregisterUser`, the producer entry point
`SendMessage` and the routing loop `Run`.

Modelling conventions.

* A subscriber endpoint is a non-nil Go channel.  It is identified by its reference
  (`Chan`), and the state of all channels is a heap `Endpoints` that gives, for each
  channel, the sequence of messages whose send on that channel has completed, oldest
  first.  A send `ch <- msg` that completes appends `msg` to that sequence.
* The `users` map is a list of key/endpoint pairs without duplicate keys; the order of
  the list stands for the order in which `range` visits the map, which Go leaves
  unspecified.
* The cancellation context is the boolean `ctx` (true once `ctx.Done()` is closed).
* A Go `select` picks one of its ready cases; when several are ready the runtime
  chooses, and the choice is an explicit argument (`Pick`).  A `select` without a ready
  case blocks, which is the result `none`.
-/

namespace Chatcore

/-- Message of chatcore.go, lines 13-19.  Timestamp is an int64 the broker only copies. -/
structure Message where
  Sender : String
  Recipient : String
  Content : String
  Broadcast : Bool
  Timestamp : Int
deriving DecidableEq, Repr

/-- Reference of a (non-nil) subscriber channel of type chan Message. -/
abbrev Chan := Nat

/-- State of the subscriber channels: for each channel the messages sent on it, oldest first. -/
abbrev Endpoints := Chan → List Message

/-- Completed send `ch <- msg`: the message is appended to the channel. -/
def chanSend (e : Endpoints) (ch : Chan) (msg : Message) : Endpoints :=
  fun c => if c = ch then e c ++ [msg] else e c

/-- Map read `m[k]` with the comma-ok result, on the entry list of a map. -/
def lookupEntries : List (String × Chan) → String → Option Chan
  | [], _ => none
  | (k, c) :: rest, key => if k = key then some c else lookupEntries rest key

/-- Entries left by `delete(m, k)`. -/
def eraseEntries (key : String) (l : List (String × Chan)) : List (String × Chan) :=
  l.filter (fun p => decide (p.1 ≠ key))

/-- The registry `users map[string]chan Message` (line 27): entries with pairwise distinct keys. -/
structure Registry where
  entries : List (String × Chan)
  nodupKeys : (entries.map Prod.fst).Nodup

/-- The empty map `make(map[string]chan Message)`. -/
def Registry.empty : Registry := ⟨[], List.nodup_nil⟩

/-- Map read `users[k]` with the comma-ok result. -/
def Registry.lookup (r : Registry) (key : String) : Option Chan :=
  lookupEntries r.entries key

/-- Builtin `delete(users, k)`. -/
def Registry.erase (r : Registry) (key : String) : Registry :=
  ⟨eraseEntries key r.entries,
    r.nodupKeys.sublist ((List.filter_sublist r.entries).map Prod.fst)⟩

/-- Map write `users[k] = c`: the entry for `k` is replaced or created. -/
def Registry.insert (r : Registry) (key : String) (c : Chan) : Registry :=
  ⟨(key, c) :: eraseEntries key r.entries, by
    rw [List.map_cons, List.nodup_cons]
    refine ⟨?_, r.nodupKeys.sublist ((List.filter_sublist r.entries).map Prod.fst)⟩
    intro h
    obtain ⟨p, hp, hk⟩ := List.mem_map.1 h
    have := (List.mem_filter.1 hp).2
    simp at this
    exact this hk⟩

/-- A buffered channel `make(chan Message, cap)`: its capacity and the pending messages, oldest first. -/
structure BufChan where
  cap : Nat
  buf : List Message

/-- Broker of chatcore.go, lines 24-31 (usersMutex has no state of its own in a sequential model).
`ctx` is true once the context is cancelled, `done` is true once the done channel is closed. -/
structure Broker where
  ctx : Bool
  input : BufChan
  users : Registry
  done : Bool

/-- NewBroker, lines 34-41. -/
def NewBroker (ctx : Bool) : Broker :=
  { ctx := ctx
    input := { cap := 100, buf := [] }
    users := Registry.empty
    done := false }

/-- Index of a case of a two-case select statement, in source order. -/
inductive Pick where
  | case0
  | case1
deriving DecidableEq, Repr

/-- Go select over two communication cases: `r0` and `r1` say which of them can proceed, `pick` is
the runtime choice when both can.  The result `none` means that the statement blocks. -/
def select2 (pick : Pick) (r0 r1 : Bool) : Option Pick :=
  match r0, r1 with
  | true, true => some pick
  | true, false => some Pick.case0
  | false, true => some Pick.case1
  | false, false => none

/-- The error value `errors.New("broker is closed")`. -/
def errBrokerClosed : String := "broker is closed"

/-- The select statement of SendMessage, lines 75-80: case0 is the send on `b.input`, ready when the
buffer has room, case1 is `<-b.ctx.Done()`.  The first component of the result is the returned
error (`none` for nil); the result `none` means that the call is blocked in the select. -/
def sendSelect (pick : Pick) (b : Broker) (msg : Message) : Option (Option String × Broker) :=
  match select2 pick (decide (b.input.buf.length < b.input.cap)) b.ctx with
  | some Pick.case0 =>
    some (none, { b with input := { b.input with buf := b.input.buf ++ [msg] } })
  | some Pick.case1 => some (some errBrokerClosed, b)
  | none => none

/-- SendMessage, lines 70-81. -/
def SendMessage (pick : Pick) (b : Broker) (msg : Message) : Option (Option String × Broker) :=
  if b.ctx then some (some errBrokerClosed, b)
  else sendSelect pick b msg

/-- The creator of the context cancels it: `ctx.Done()` is closed, for good. -/
def cancel (b : Broker) : Broker :=
  { b with ctx := true }

/-- RegisterUser, lines 84-88. -/
def RegisterUser (b : Broker) (userID : String) (recv : Chan) : Broker :=
  { b with users := b.users.insert userID recv }

/-- UnregisterUser, lines 91-95. -/
def UnregisterUser (b : Broker) (userID : String) : Broker :=
  { b with users := b.users.erase userID }

/-- Handling of one dequeued message, lines 53-64: the switch on `msg.Broadcast`. -/
def route (users : Registry) (msg : Message) (e : Endpoints) : Endpoints :=
  match msg.Broadcast with
  | true => users.entries.foldl (fun acc p => chanSend acc p.2 msg) e
  | false =>
    match users.lookup msg.Recipient with
    | some dest => chanSend e dest msg
    | none => e

/-- Where the goroutine of Run is: not started, inside its loop, or returned. -/
inductive LoopState where
  | idle
  | running
  | stopped
deriving DecidableEq, Repr

/-- The broker together with the routing goroutine and the subscriber channels. -/
structure World where
  broker : Broker
  loop : LoopState
  chans : Endpoints

/-- A broker fresh from NewBroker, Run not yet called. -/
def World.init (ctx : Bool) (chans : Endpoints) : World :=
  { broker := NewBroker ctx, loop := LoopState.idle, chans := chans }

/-- One pass through the loop body of Run, lines 47-66.  The select has case0 `<-b.ctx.Done()` and
case1 `msg := <-b.input`, ready when the buffer is not empty.  Taking case0 returns from Run, and the
deferred `close(b.done)` runs.  The result `none` means that the loop is blocked in the select
(or that the goroutine is not in the loop at all). -/
def runIter (pick : Pick) (w : World) : Option World :=
  match w.loop with
  | LoopState.running =>
    match select2 pick w.broker.ctx (!w.broker.input.buf.isEmpty) with
    | some Pick.case0 =>
      some { w with loop := LoopState.stopped, broker := { w.broker with done := true } }
    | some Pick.case1 =>
      match w.broker.input.buf with
      | msg :: rest =>
        some { w with
          broker := { w.broker with input := { w.broker.input with buf := rest } }
          chans := route w.broker.users msg w.chans }
      | [] => none
    | none => none
  | _ => none

/-- Successive passes through the loop body, one runtime choice per pass. -/
def runIters : List Pick → World → Option World
  | [], w => some w
  | p :: ps, w =>
    match runIter p w with
    | some w1 => runIters ps w1
    | none => none

/-- Run, lines 44-67: the call enters the loop of a broker whose loop is not started. -/
def Run (picks : List Pick) (w : World) : Option World :=
  match w.loop with
  | LoopState.idle => runIters picks { w with loop := LoopState.running }
  | _ => none

/-- SendMessage as a step of the whole system. -/
def World.SendMessage (pick : Pick) (w : World) (msg : Message) : Option (Option String × World) :=
  match Chatcore.SendMessage pick w.broker msg with
  | some (err, b) => some (err, { w with broker := b })
  | none => none

/-- Cancellation of the context as a step of the whole system. -/
def World.cancel (w : World) : World :=
  { w with broker := Chatcore.cancel w.broker }

/-- RegisterUser as a step of the whole system. -/
def World.RegisterUser (w : World) (userID : String) (recv : Chan) : World :=
  { w with broker := Chatcore.RegisterUser w.broker userID recv }

/-- UnregisterUser as a step of the whole system. -/
def World.UnregisterUser (w : World) (userID : String) : World :=
  { w with broker := Chatcore.UnregisterUser w.broker userID }

/-- Number of messages that were appended to channel `c` between two states of the channels. -/
def delivered (before after : Endpoints) (c : Chan) : Nat :=
  (after c).length - (before c).length

/-- An event of a run of the system: a SendMessage call that returns nil, or one pass of the
routing loop.  Each carries the runtime choice of its select statement. -/
inductive Event where
  | send (pick : Pick) (msg : Message)
  | iter (pick : Pick)

/-- The effect of one event; `none` when the event cannot happen in this state (the call blocks
or returns an error, the loop is blocked or not running). -/
def stepEvent (ev : Event) (w : World) : Option World :=
  match ev with
  | Event.send pick msg =>
    match World.SendMessage pick w msg with
    | some (none, w1) => some w1
    | _ => none
  | Event.iter pick => runIter pick w

/-- The effect of a sequence of events, in order. -/
def exec : List Event → World → Option World
  | [], w => some w
  | ev :: evs, w =>
    match stepEvent ev w with
    | some w1 => exec evs w1
    | none => none

/-- The messages accepted by the SendMessage calls of a sequence of events, in call order. -/
def sentMessages : List Event → List Message
  | [] => []
  | Event.send _ msg :: evs => msg :: sentMessages evs
  | Event.iter _ :: evs => sentMessages evs

/-- No subscriber channel holds a message. -/
def noMessages : Endpoints := fun _ => []

/-- Scenario of the specification: alice and bob registered with the endpoints 0 and 1. -/
def aliceBob : Broker :=
  RegisterUser (RegisterUser (NewBroker false) "alice" 0) "bob" 1

/-- A broadcast message. -/
def msgHi : Message :=
  { Sender := "bob", Recipient := "", Content := "hi", Broadcast := true, Timestamp := 1 }

/-- A unicast message to alice. -/
def msgPsst : Message :=
  { Sender := "bob", Recipient := "alice", Content := "psst", Broadcast := false, Timestamp := 2 }

/-- A second unicast message to alice. -/
def msgAgain : Message :=
  { Sender := "carol", Recipient := "alice", Content := "again", Broadcast := false, Timestamp := 4 }

/-- A unicast message to carol. -/
def msgCarol : Message :=
  { Sender := "bob", Recipient := "carol", Content := "hello", Broadcast := false, Timestamp := 3 }

/-- The scenario with the routing loop running and the given messages pending. -/
def scenario (ctx : Bool) (pending : List Message) : World :=
  { broker := { aliceBob with ctx := ctx, input := { cap := 100, buf := pending } }
    loop := LoopState.running
    chans := noMessages }

/-- Alice and bob registered with one and the same endpoint 0, the routing loop running and the
given messages pending. -/
def sharedEndpoint (pending : List Message) : World :=
  { broker :=
      { RegisterUser (RegisterUser (NewBroker false) "alice" 0) "bob" 0 with
        input := { cap := 100, buf := pending } }
    loop := LoopState.running
    chans := noMessages }

/-- A step of the system around one broker.  `start` is the call of Run, which the creator makes
once (it enters the loop of a broker whose loop is not started); `iter` is one pass of the loop;
`send`, `register`, `unregister` are the calls of the producers and of the transport; `cancel` is
the cancellation of the context. -/
inductive Action where
  | start
  | iter (pick : Pick)
  | send (pick : Pick) (msg : Message)
  | register (userID : String) (recv : Chan)
  | unregister (userID : String)
  | cancel

/-- The effect of a step; `none` when the step cannot happen in this state. -/
def act (a : Action) (w : World) : Option World :=
  match a with
  | Action.start => Run [] w
  | Action.iter pick => runIter pick w
  | Action.send pick msg =>
    match World.SendMessage pick w msg with
    | some (_, w1) => some w1
    | none => none
  | Action.register userID recv => some (w.RegisterUser userID recv)
  | Action.unregister userID => some (w.UnregisterUser userID)
  | Action.cancel => some w.cancel

/-- The states of the system that can be reached from a broker fresh from NewBroker. -/
inductive Reachable : World → Prop where
  | init (ctx : Bool) (chans : Endpoints) : Reachable (World.init ctx chans)
  | step {w w1 : World} (a : Action) : Reachable w → act a w = some w1 → Reachable w1

/-- A fresh broker whose Run has been called. -/
def startedWorld : World :=
  { World.init false noMessages with loop := LoopState.running }

/-- The state after Run has been called, the context has been cancelled and the loop has taken
the cancellation case. -/
def stoppedWorld : World :=
  { broker := { NewBroker true with done := true }
    loop := LoopState.stopped
    chans := noMessages }

end Chatcore

/-!
# Task manager (labs/lab01/backend/taskmanager/taskmanager.go)

Modelling conventions.

* The map `tasks map[int]Task` is a list of key/task pairs without duplicate keys; the order of the
  list stands for the order in which `range` visits the map.  Go leaves that order unspecified and
  may change it from one loop to the next, which is the step `reorder` of the reachable managers.
* The Go type int is the type of the integers: `nextID` starts at 1 and grows by one per stored
  task, so it stays far from the bounds of a machine integer.
* `time.Now()` is an argument of AddTask, and a time is an integer (0 for the zero time).
* An error result is `none` for nil and `some` of the error otherwise.
-/

namespace Taskmanager

/-- The error value `ErrTaskNotFound`, line 10. -/
def ErrTaskNotFound : String := "task not found"

/-- The error value `ErrEmptyTitle`, line 11. -/
def ErrEmptyTitle : String := "title cannot be empty"

/-- Task of taskmanager.go, lines 15-21. -/
structure Task where
  ID : Int
  Title : String
  Description : String
  Done : Bool
  CreatedAt : Int
deriving DecidableEq, Repr

/-- The zero value `Task{}`. -/
def Task.zero : Task :=
  { ID := 0, Title := "", Description := "", Done := false, CreatedAt := 0 }

/-- Map read `m[k]` with the comma-ok result, on the entry list of a map. -/
def getEntries : List (Int × Task) → Int → Option Task
  | [], _ => none
  | (k, t) :: rest, key => if k = key then some t else getEntries rest key

/-- Entries left by `delete(m, k)`. -/
def deleteEntries (key : Int) (l : List (Int × Task)) : List (Int × Task) :=
  l.filter (fun p => decide (p.1 ≠ key))

/-- The map `tasks map[int]Task` (line 25): entries with pairwise distinct keys. -/
structure TaskMap where
  entries : List (Int × Task)
  nodupKeys : (entries.map Prod.fst).Nodup

/-- The empty map `make(map[int]Task)`. -/
def TaskMap.empty : TaskMap := ⟨[], List.nodup_nil⟩

/-- Map read `tasks[k]` with the comma-ok result. -/
def TaskMap.get (m : TaskMap) (key : Int) : Option Task :=
  getEntries m.entries key

/-- Builtin `delete(tasks, k)`. -/
def TaskMap.delete (m : TaskMap) (key : Int) : TaskMap :=
  ⟨deleteEntries key m.entries,
    m.nodupKeys.sublist ((List.filter_sublist m.entries).map Prod.fst)⟩

/-- Map write `tasks[k] = t`: the entry for `k` is replaced or created. -/
def TaskMap.set (m : TaskMap) (key : Int) (t : Task) : TaskMap :=
  ⟨(key, t) :: deleteEntries key m.entries, by
    rw [List.map_cons, List.nodup_cons]
    refine ⟨?_, m.nodupKeys.sublist ((List.filter_sublist m.entries).map Prod.fst)⟩
    intro h
    obtain ⟨p, hp, hk⟩ := List.mem_map.1 h
    have := (List.mem_filter.1 hp).2
    simp at this
    exact this hk⟩

/-- TaskManager of taskmanager.go, lines 24-27. -/
structure TaskManager where
  tasks : TaskMap
  nextID : Int

/-- NewTaskManager, lines 30-35. -/
def NewTaskManager : TaskManager :=
  { tasks := TaskMap.empty, nextID := 1 }

/-- AddTask, lines 38-54; `now` is the value of `time.Now()`.  The result is the returned task and
error, and the manager after the call.  The test `len(title) == 0` holds for the empty string
only, whether the length is counted in bytes or in characters. -/
def AddTask (now : Int) (tm : TaskManager) (title description : String) :
    (Task × Option String) × TaskManager :=
  if title.length = 0 then ((Task.zero, some ErrEmptyTitle), tm)
  else
    let taska : Task :=
      { ID := tm.nextID, Title := title, Description := description, Done := false,
        CreatedAt := now }
    ((taska, none), { tasks := tm.tasks.set tm.nextID taska, nextID := tm.nextID + 1 })

/-- UpdateTask, lines 57-75. -/
def UpdateTask (tm : TaskManager) (id : Int) (title description : String) (done : Bool) :
    Option String × TaskManager :=
  if title.length = 0 then (some ErrEmptyTitle, tm)
  else
    match tm.tasks.get id with
    | none => (some ErrTaskNotFound, tm)
    | some task =>
      (none, { tm with
        tasks := tm.tasks.set id
          { task with Title := title, Description := description, Done := done } })

/-- DeleteTask, lines 78-94.  The loop `for id, task := range tm.tasks` declares a new `id`, the key
of the entry, which hides the parameter `id` inside the loop: the test `task.ID == id` compares the
task with its own key, and the parameter is not read anywhere. -/
def DeleteTask (tm : TaskManager) (id : Int) : Option String × TaskManager :=
  let foundId : Int :=
    tm.tasks.entries.foldl
      (fun foundId (id, task) => if task.ID = id then task.ID else foundId) (-1)
  if foundId = -1 then (some ErrTaskNotFound, tm)
  else (none, { tm with tasks := tm.tasks.delete foundId })

/-- GetTask, lines 97-112.  The last line reads `tm.tasks[foundId]`, which is the zero Task when the
key is absent. -/
def GetTask (tm : TaskManager) (id : Int) : (Task × Option String) × TaskManager :=
  let foundId : Int :=
    tm.tasks.entries.foldl
      (fun foundId (_, task) => if task.ID = id then task.ID else foundId) (-1)
  if foundId = -1 then ((Task.zero, some ErrTaskNotFound), tm)
  else (((tm.tasks.get foundId).getD Task.zero, none), tm)

/-- ListTasks, lines 115-129; `filterDone` is `none` for a nil pointer. -/
def ListTasks (tm : TaskManager) (filterDone : Option Bool) : List Task × TaskManager :=
  (tm.tasks.entries.foldl
    (fun taski (_, taska) =>
      match filterDone with
      | none => taski ++ [taska]
      | some f => if taska.Done = f then taski ++ [taska] else taski) [],
    tm)

/-- Direct lookup of key `id` in the task map, the behaviour that GetTask is compared with: the
stored task and nil when the key is present, the zero Task and ErrTaskNotFound otherwise, the
manager as it was. -/
def GetTaskByKey (tm : TaskManager) (id : Int) : (Task × Option String) × TaskManager :=
  match tm.tasks.get id with
  | some task => ((task, none), tm)
  | none => ((Task.zero, some ErrTaskNotFound), tm)

/-- The ids returned so far by the successful AddTask calls, extended by the result of one more
call. -/
def returnedIds (ids : List Int) (r : Task × Option String) : List Int :=
  match r.2 with
  | none => ids ++ [r.1.ID]
  | some _ => ids

/-- The managers that can be reached from NewTaskManager by calls of AddTask, UpdateTask and
DeleteTask, each with the list of the ids that the successful AddTask calls returned, in call
order.  The step `reorder` is the freedom of `range` to visit the map in another order. -/
inductive Reached : TaskManager → List Int → Prop where
  | new : Reached NewTaskManager []
  | add {tm : TaskManager} {ids : List Int} (now : Int) (title description : String) :
    Reached tm ids →
    Reached (AddTask now tm title description).2
      (returnedIds ids (AddTask now tm title description).1)
  | update {tm : TaskManager} {ids : List Int} (id : Int) (title description : String)
    (done : Bool) :
    Reached tm ids → Reached (UpdateTask tm id title description done).2 ids
  | delete {tm : TaskManager} {ids : List Int} (id : Int) :
    Reached tm ids → Reached (DeleteTask tm id).2 ids
  | reorder {tm tm1 : TaskManager} {ids : List Int} :
    Reached tm ids → tm1.tasks.entries.Perm tm.tasks.entries → tm1.nextID = tm.nextID →
    Reached tm1 ids

/-- Every stored task carries its own key as ID, and the keys lie between 1 and nextID - 1. -/
def WellKeyed (tm : TaskManager) : Prop :=
  ∀ p ∈ tm.tasks.entries, p.2.ID = p.1 ∧ 1 ≤ p.1 ∧ p.1 < tm.nextID

/-- Whether ListTasks keeps a task: every task for a nil filter, the tasks with that value of Done
otherwise. -/
def matchesFilter (filterDone : Option Bool) (t : Task) : Bool :=
  match filterDone with
  | none => true
  | some f => decide (t.Done = f)

/-- Two tasks added to a new manager, at the times 10 and 20. -/
def twoTasks : TaskManager :=
  (AddTask 20 (AddTask 10 NewTaskManager "a" "first").2 "b" "second").2

/-- One task added to a new manager, at the time 10. -/
def oneTask : TaskManager :=
  (AddTask 10 NewTaskManager "a" "first").2

end Taskmanager

namespace Chatcore

/-! ## Lemmas on channels and on the registry -/

theorem chanSend_same (e : Endpoints) (ch : Chan) (msg : Message) :
    chanSend e ch msg ch = e ch ++ [msg] := by
  simp [chanSend]

theorem chanSend_other (e : Endpoints) (ch c : Chan) (msg : Message) (h : c ≠ ch) :
    chanSend e ch msg c = e c := by
  simp [chanSend, h]

theorem foldl_chanSend_apply (msg : Message) (l : List (String × Chan)) (e : Endpoints)
    (c : Chan) :
    (l.foldl (fun acc p => chanSend acc p.2 msg) e) c
      = e c ++ List.replicate ((l.map Prod.snd).count c) msg := by
  induction l generalizing e with
  | nil => simp
  | cons p t ih =>
    rw [List.foldl_cons, ih]
    by_cases h : c = p.2
    · subst h
      simp [chanSend_same, List.replicate_succ]
    · have h2 : ¬ p.2 = c := fun h3 => h h3.symm
      simp [chanSend_other _ _ _ _ h, List.count_cons, h2]

theorem sum_map_one {α : Type} (l : List α) : (l.map (fun _ => 1)).sum = l.length := by
  induction l with
  | nil => rfl
  | cons a t ih => simp [ih, Nat.add_comm]

theorem lookupEntries_mem {l : List (String × Chan)} {key : String} {c : Chan}
    (h : lookupEntries l key = some c) : (key, c) ∈ l := by
  induction l with
  | nil => simp [lookupEntries] at h
  | cons p t ih =>
    obtain ⟨k, v⟩ := p
    by_cases hk : k = key
    · simp [lookupEntries, hk] at h
      simp [hk, h]
    · simp [lookupEntries, hk] at h
      exact List.mem_cons_of_mem _ (ih h)

theorem lookupEntries_of_mem {l : List (String × Chan)} {key : String} {c : Chan}
    (hnd : (l.map Prod.fst).Nodup) (h : (key, c) ∈ l) : lookupEntries l key = some c := by
  induction l with
  | nil => simp at h
  | cons p t ih =>
    obtain ⟨k, v⟩ := p
    rw [List.map_cons, List.nodup_cons] at hnd
    rcases List.mem_cons.1 h with heq | hmem
    · cases heq
      simp [lookupEntries]
    · have hk : k ≠ key := by
        intro hk
        apply hnd.1
        rw [hk]
        exact List.mem_map.2 ⟨(key, c), hmem, rfl⟩
      simp [lookupEntries, hk]
      exact ih hnd.2 hmem

theorem eraseEntries_cons_self (key : String) (v : Chan) (t : List (String × Chan)) :
    eraseEntries key ((key, v) :: t) = eraseEntries key t := by
  simp [eraseEntries]

theorem eraseEntries_cons_ne {key k : String} (h : k ≠ key) (v : Chan)
    (t : List (String × Chan)) :
    eraseEntries key ((k, v) :: t) = (k, v) :: eraseEntries key t := by
  simp [eraseEntries, h]

theorem lookupEntries_erase_self (key : String) (l : List (String × Chan)) :
    lookupEntries (eraseEntries key l) key = none := by
  induction l with
  | nil => rfl
  | cons p t ih =>
    obtain ⟨k, v⟩ := p
    by_cases hk : k = key
    · subst hk
      rw [eraseEntries_cons_self, ih]
    · rw [eraseEntries_cons_ne hk]
      simp [lookupEntries, hk, ih]

theorem lookupEntries_erase_ne {key other : String} (h : other ≠ key)
    (l : List (String × Chan)) :
    lookupEntries (eraseEntries key l) other = lookupEntries l other := by
  induction l with
  | nil => rfl
  | cons p t ih =>
    obtain ⟨k, v⟩ := p
    by_cases hk : k = key
    · subst hk
      rw [eraseEntries_cons_self, ih]
      have hko : ¬ k = other := fun h2 => h h2.symm
      simp [lookupEntries, hko]
    · rw [eraseEntries_cons_ne hk]
      simp only [lookupEntries, ih]

theorem eraseEntries_of_lookup_none {key : String} {l : List (String × Chan)}
    (h : lookupEntries l key = none) : eraseEntries key l = l := by
  induction l with
  | nil => rfl
  | cons p t ih =>
    obtain ⟨k, v⟩ := p
    by_cases hk : k = key
    · simp [lookupEntries, hk] at h
    · simp [lookupEntries, hk] at h
      rw [eraseEntries_cons_ne hk, ih h]

theorem Registry.ext_entries {r s : Registry} (h : r.entries = s.entries) : r = s := by
  cases r
  cases s
  cases h
  rfl

theorem Registry.lookup_insert_self (r : Registry) (key : String) (c : Chan) :
    (r.insert key c).lookup key = some c := by
  simp [Registry.lookup, Registry.insert, lookupEntries]

theorem Registry.lookup_insert_ne (r : Registry) {key other : String} (c : Chan)
    (h : other ≠ key) : (r.insert key c).lookup other = r.lookup other := by
  have h2 : ¬ key = other := fun h3 => h h3.symm
  simp [Registry.lookup, Registry.insert, lookupEntries, h2, lookupEntries_erase_ne h]

theorem Registry.lookup_erase_self (r : Registry) (key : String) :
    (r.erase key).lookup key = none := by
  simp [Registry.lookup, Registry.erase, lookupEntries_erase_self]

theorem Registry.lookup_erase_ne (r : Registry) {key other : String} (h : other ≠ key) :
    (r.erase key).lookup other = r.lookup other := by
  simp [Registry.lookup, Registry.erase, lookupEntries_erase_ne h]

theorem Registry.erase_of_lookup_none (r : Registry) {key : String}
    (h : r.lookup key = none) : r.erase key = r :=
  Registry.ext_entries (eraseEntries_of_lookup_none h)

theorem filter_key_eraseEntries (key : String) (l : List (String × Chan)) :
    (eraseEntries key l).filter (fun p => decide (p.1 = key)) = [] := by
  rw [List.filter_eq_nil_iff]
  intro p hp
  have := (List.mem_filter.1 hp).2
  simpa using this

theorem filter_key_insert (r : Registry) (key : String) (c : Chan) :
    (r.insert key c).entries.filter (fun p => decide (p.1 = key)) = [(key, c)] := by
  simp [Registry.insert, List.filter_cons, filter_key_eraseEntries]

/-! ## Lemmas on the routing loop -/

theorem route_broadcast (users : Registry) (msg : Message) (e : Endpoints)
    (hb : msg.Broadcast = true) (c : Chan) :
    route users msg e c
      = e c ++ List.replicate ((users.entries.map Prod.snd).count c) msg := by
  simp only [route, hb]
  exact foldl_chanSend_apply msg users.entries e c

/-- The outcome of a broadcast does not depend on the order in which the registry is visited. -/
theorem route_broadcast_perm (r1 r2 : Registry) (msg : Message) (e : Endpoints)
    (hb : msg.Broadcast = true) (hperm : r1.entries.Perm r2.entries) :
    route r1 msg e = route r2 msg e := by
  funext c
  rw [route_broadcast r1 msg e hb c, route_broadcast r2 msg e hb c,
    (hperm.map Prod.snd).count_eq c]

theorem route_unicast_some (users : Registry) (msg : Message) (e : Endpoints)
    (hb : msg.Broadcast = false) {dest : Chan} (hreg : users.lookup msg.Recipient = some dest) :
    route users msg e = chanSend e dest msg := by
  simp only [route, hb, hreg]

theorem route_unicast_none (users : Registry) (msg : Message) (e : Endpoints)
    (hb : msg.Broadcast = false) (hreg : users.lookup msg.Recipient = none) :
    route users msg e = e := by
  simp only [route, hb, hreg]

/-- The pass of the loop that dequeues: the head of the queue is handled and removed. -/
theorem runIter_dequeue (w : World) (msg : Message) (rest : List Message) (pick : Pick)
    (hrun : w.loop = LoopState.running) (hq : w.broker.input.buf = msg :: rest)
    (hsel : w.broker.ctx = false ∨ pick = Pick.case1) :
    runIter pick w = some { w with
      broker := { w.broker with input := { w.broker.input with buf := rest } }
      chans := route w.broker.users msg w.chans } := by
  rcases hsel with h | h
  · simp [runIter, hrun, hq, h, select2]
  · cases hc : w.broker.ctx <;> simp [runIter, hrun, hq, h, hc, select2]

theorem route_unicast_apply (users : Registry) (msg : Message) (e : Endpoints) {r : String}
    {dest : Chan} (hreg : users.lookup r = some dest)
    (hm : msg.Broadcast = false ∧ msg.Recipient = r) (c : Chan) :
    route users msg e c = if c = dest then e c ++ [msg] else e c := by
  have hreg2 : users.lookup msg.Recipient = some dest := by rw [hm.2]; exact hreg
  rw [route_unicast_some users msg e hm.1 hreg2]
  rfl

/-- Handling a list of unicast messages for one registered recipient, in order, appends the list
to the endpoint of the recipient and touches no other channel. -/
theorem foldl_route_unicast (users : Registry) {r : String} {dest : Chan}
    (hreg : users.lookup r = some dest) (ms : List Message)
    (hms : ∀ m ∈ ms, m.Broadcast = false ∧ m.Recipient = r) (e : Endpoints) (c : Chan) :
    (ms.foldl (fun acc m => route users m acc) e) c = if c = dest then e c ++ ms else e c := by
  induction ms generalizing e with
  | nil => simp
  | cons m t ih =>
    rw [List.foldl_cons, ih (fun x hx => hms x (List.mem_cons_of_mem _ hx)),
      route_unicast_apply users m e hreg (hms m (List.mem_cons_self _ _))]
    by_cases hc : c = dest <;> simp [hc]

theorem SendMessage_accept (pick : Pick) (b : Broker) (msg : Message) (hctx : b.ctx = false)
    (hroom : b.input.buf.length < b.input.cap) :
    SendMessage pick b msg
      = some (none, { b with input := { b.input with buf := b.input.buf ++ [msg] } }) := by
  simp [SendMessage, sendSelect, select2, hctx, hroom]

theorem exec_append (evs1 evs2 : List Event) (w : World) :
    exec (evs1 ++ evs2) w = (exec evs1 w).bind (exec evs2) := by
  induction evs1 generalizing w with
  | nil => rfl
  | cons ev t ih =>
    simp only [List.cons_append, exec]
    cases stepEvent ev w with
    | none => rfl
    | some w1 => exact ih w1

/-- Successive SendMessage calls on a broker that is not cancelled and has room for all the
messages all return nil and append the messages to the queue in call order. -/
theorem exec_sends (pick : Pick) (ms : List Message) (w : World) (hctx : w.broker.ctx = false)
    (hroom : w.broker.input.buf.length + ms.length ≤ w.broker.input.cap) :
    exec (ms.map (Event.send pick)) w = some { w with
      broker := { w.broker with input := { w.broker.input with buf := w.broker.input.buf ++ ms } } } := by
  induction ms generalizing w with
  | nil => simp [exec]
  | cons m t ih =>
    have hlt : w.broker.input.buf.length < w.broker.input.cap := by
      simp only [List.length_cons] at hroom
      omega
    simp only [List.map_cons, exec, stepEvent, World.SendMessage,
      SendMessage_accept pick w.broker m hctx hlt]
    rw [ih]
    · simp
    · exact hctx
    · simp only [List.length_append, List.length_cons, List.length_nil] at hroom ⊢
      omega

/-- As many passes of the loop as there are pending messages, on a broker that is not cancelled:
every pass dequeues, the messages are handled in queue order and the queue ends empty. -/
theorem exec_iters (picks : List Pick) (w : World) (hrun : w.loop = LoopState.running)
    (hctx : w.broker.ctx = false) (hlen : picks.length = w.broker.input.buf.length) :
    exec (picks.map Event.iter) w = some { w with
      broker := { w.broker with input := { w.broker.input with buf := [] } }
      chans := w.broker.input.buf.foldl (fun acc m => route w.broker.users m acc) w.chans } := by
  induction picks generalizing w with
  | nil =>
    have hnil : w.broker.input.buf = [] := List.length_eq_zero.1 hlen.symm
    simp [exec, hnil]
    cases w with
    | mk b l ch =>
      cases b with
      | mk ctx input users done =>
        cases input
        simp at hnil
        simp [hnil]
  | cons p t ih =>
    cases hq : w.broker.input.buf with
    | nil => simp [hq] at hlen
    | cons m rest =>
      simp only [List.map_cons, exec, stepEvent,
        runIter_dequeue w m rest p hrun hq (Or.inl hctx)]
      rw [ih]
      · simp
      · exact hrun
      · exact hctx
      · simpa [hq] using hlen

/-- Invariant of every run without cancellation: the messages handled so far followed by the
pending ones are the initially pending ones followed by the accepted ones, in order; the loop
keeps running and the registry does not change. -/
theorem exec_fifo (evs : List Event) (w w1 : World) (hrun : w.loop = LoopState.running)
    (hctx : w.broker.ctx = false) (h : exec evs w = some w1) :
    w1.loop = LoopState.running ∧ w1.broker.ctx = false ∧ w1.broker.users = w.broker.users ∧
    ∃ handled, handled ++ w1.broker.input.buf = w.broker.input.buf ++ sentMessages evs ∧
      w1.chans = handled.foldl (fun acc m => route w.broker.users m acc) w.chans := by
  induction evs generalizing w with
  | nil =>
    simp only [exec, Option.some.injEq] at h
    subst h
    exact ⟨hrun, hctx, rfl, [], by simp [sentMessages], rfl⟩
  | cons ev t ih =>
    cases ev with
    | send pick msg =>
      by_cases hroom : w.broker.input.buf.length < w.broker.input.cap
      · simp only [exec, stepEvent, World.SendMessage,
          SendMessage_accept pick w.broker msg hctx hroom] at h
        obtain ⟨h1, h2, h3, handled, h4, h5⟩ := ih _ (by exact hrun) (by exact hctx) h
        exact ⟨h1, h2, h3, handled, by simpa [sentMessages] using h4, h5⟩
      · simp [exec, stepEvent, World.SendMessage, SendMessage, sendSelect, select2, hctx,
          hroom] at h
    | iter pick =>
      cases hq : w.broker.input.buf with
      | nil => simp [exec, stepEvent, runIter, hrun, hctx, hq, select2] at h
      | cons m rest =>
        simp only [exec, stepEvent, runIter_dequeue w m rest pick hrun hq (Or.inl hctx)] at h
        obtain ⟨h1, h2, h3, handled, h4, h5⟩ := ih _ (by exact hrun) (by exact hctx) h
        refine ⟨h1, h2, h3, m :: handled, ?_, ?_⟩
        · simpa [sentMessages] using h4
        · simpa using h5

/-- The pass of the loop that dequeues a unicast message for a registered recipient. -/
theorem unicast_step (w : World) (msg : Message) (rest : List Message)
    (pick : Pick) (dest : Chan)
    (hrun : w.loop = LoopState.running) (hq : w.broker.input.buf = msg :: rest)
    (hsel : w.broker.ctx = false ∨ pick = Pick.case1) (hb : msg.Broadcast = false)
    (hreg : w.broker.users.lookup msg.Recipient = some dest) :
    ∃ w1, runIter pick w = some w1 ∧
      w1.broker.users = w.broker.users ∧ w1.broker.input.buf = rest ∧
      w1.loop = LoopState.running ∧
      w1.chans dest = w.chans dest ++ [msg] ∧
      (∀ c, c ≠ dest → w1.chans c = w.chans c) ∧
      (∀ id c, id ≠ msg.Recipient → w.broker.users.lookup id = some c → c ≠ dest →
        w1.chans c = w.chans c) := by
  refine ⟨_, runIter_dequeue w msg rest pick hrun hq hsel, rfl, rfl, hrun, ?_, ?_, ?_⟩
  · show route w.broker.users msg w.chans dest = _
    rw [route_unicast_some _ _ _ hb hreg, chanSend_same]
  · intro c hc
    show route w.broker.users msg w.chans c = _
    rw [route_unicast_some _ _ _ hb hreg, chanSend_other _ _ _ _ hc]
  · intro id c _ _ hc
    show route w.broker.users msg w.chans c = _
    rw [route_unicast_some _ _ _ hb hreg, chanSend_other _ _ _ _ hc]

/-- The two outcomes of a pass of the loop: Run returns, or the head of the queue is handled. -/
theorem runIter_cases (pick : Pick) (w w1 : World) (h : runIter pick w = some w1) :
    w.loop = LoopState.running ∧
    ((w.broker.ctx = true ∧
        w1 = { w with loop := LoopState.stopped, broker := { w.broker with done := true } }) ∨
      ∃ msg rest, w.broker.input.buf = msg :: rest ∧
        w1 = { w with
          broker := { w.broker with input := { w.broker.input with buf := rest } }
          chans := route w.broker.users msg w.chans }) := by
  obtain ⟨⟨ctx, ⟨cap, buf⟩, users, done⟩, loop, chans⟩ := w
  cases loop with
  | idle => simp [runIter] at h
  | stopped => simp [runIter] at h
  | running =>
    refine ⟨rfl, ?_⟩
    cases ctx <;> cases buf with
    | nil => cases pick <;> simp [runIter, select2] at h <;> subst h <;> simp
    | cons m rest =>
      cases pick <;> simp [runIter, select2] at h <;> subst h <;>
        first
          | exact Or.inl ⟨rfl, rfl⟩
          | exact Or.inr ⟨m, rest, rfl, rfl⟩

/-- No event makes the queue longer than its capacity, and no event changes the capacity. -/
theorem stepEvent_bound (ev : Event) (w w1 : World) (h : stepEvent ev w = some w1)
    (hlen : w.broker.input.buf.length ≤ w.broker.input.cap) :
    w1.broker.input.cap = w.broker.input.cap ∧
    w1.broker.input.buf.length ≤ w1.broker.input.cap := by
  cases ev with
  | send pick msg =>
    by_cases hctx : w.broker.ctx = true
    · simp [stepEvent, World.SendMessage, SendMessage, hctx] at h
    · by_cases hroom : w.broker.input.buf.length < w.broker.input.cap
      · simp [stepEvent, World.SendMessage, SendMessage, sendSelect, select2, hctx, hroom] at h
        subst h
        simp
        omega
      · simp [stepEvent, World.SendMessage, SendMessage, sendSelect, select2, hctx, hroom] at h
  | iter pick =>
    obtain ⟨_, hstop | ⟨msg, rest, hq, hw1⟩⟩ := runIter_cases pick w w1 h
    · rw [hstop.2]
      exact ⟨rfl, hlen⟩
    · rw [hw1]
      refine ⟨rfl, ?_⟩
      rw [hq] at hlen
      simp only [List.length_cons] at hlen
      show rest.length ≤ w.broker.input.cap
      omega

theorem exec_bound (evs : List Event) (w w1 : World) (h : exec evs w = some w1)
    (hlen : w.broker.input.buf.length ≤ w.broker.input.cap) :
    w1.broker.input.cap = w.broker.input.cap ∧
    w1.broker.input.buf.length ≤ w1.broker.input.cap := by
  induction evs generalizing w with
  | nil =>
    simp only [exec, Option.some.injEq] at h
    subst h
    exact ⟨rfl, hlen⟩
  | cons ev t ih =>
    cases hs : stepEvent ev w with
    | none => simp [exec, hs] at h
    | some w2 =>
      simp only [exec, hs] at h
      obtain ⟨h1, h2⟩ := stepEvent_bound ev w w2 hs hlen
      obtain ⟨h3, h4⟩ := ih w2 h h2
      exact ⟨h3.trans h1, h4⟩

/-- A pass of the loop that takes the cancellation case of the select: Run returns. -/
theorem runIter_stop (w : World) (pick : Pick) (hrun : w.loop = LoopState.running)
    (hctx : w.broker.ctx = true) (hsel : pick = Pick.case0 ∨ w.broker.input.buf = []) :
    runIter pick w
      = some { w with loop := LoopState.stopped, broker := { w.broker with done := true } } := by
  rcases hsel with h | h
  · cases hq : w.broker.input.buf <;> simp [runIter, hrun, hctx, h, hq, select2]
  · simp [runIter, hrun, hctx, h, select2]

/-! ## The claims -/

/-- C1: one pass of the routing loop that dequeues a broadcast message sends it, for every channel
`c`, as many times as there are identifiers registered on `c`, whatever `Recipient` holds; the
outcome is the same for every order in which the registry is visited; the registry is unchanged
and the message leaves the queue.
When the N registered identifiers have pairwise distinct endpoints, the endpoint of each registered
identifier receives the message exactly once, every channel that is no one's endpoint receives
nothing, and the deliveries add up to N. -/
theorem broadcast_fans_out (w : World) (msg : Message) (rest : List Message) (pick : Pick)
    (hrun : w.loop = LoopState.running) (hq : w.broker.input.buf = msg :: rest)
    (hsel : w.broker.ctx = false ∨ pick = Pick.case1) (hb : msg.Broadcast = true) :
    ∃ w1, runIter pick w = some w1 ∧
      w1.broker.users = w.broker.users ∧ w1.broker.input.buf = rest ∧
      w1.loop = LoopState.running ∧
      (∀ c, w1.chans c
        = w.chans c ++ List.replicate ((w.broker.users.entries.map Prod.snd).count c) msg) ∧
      (∀ r : Registry, r.entries.Perm w.broker.users.entries →
        route r msg w.chans = w1.chans) ∧
      ((w.broker.users.entries.map Prod.snd).Nodup →
        (∀ id c, w.broker.users.lookup id = some c → w1.chans c = w.chans c ++ [msg]) ∧
        (∀ c, (∀ id, w.broker.users.lookup id ≠ some c) → w1.chans c = w.chans c) ∧
        ((w.broker.users.entries.map Prod.snd).map (delivered w.chans w1.chans)).sum
          = w.broker.users.entries.length) := by
  refine ⟨_, runIter_dequeue w msg rest pick hrun hq hsel, rfl, rfl, hrun, ?_, ?_, ?_⟩
  · intro c
    exact route_broadcast w.broker.users msg w.chans hb c
  · intro r hperm
    exact route_broadcast_perm r w.broker.users msg w.chans hb hperm
  · intro hnd
    have hone : ∀ c ∈ w.broker.users.entries.map Prod.snd,
        route w.broker.users msg w.chans c = w.chans c ++ [msg] := by
      intro c hc
      rw [route_broadcast w.broker.users msg w.chans hb c, List.count_eq_one_of_mem hnd hc]
      rfl
    refine ⟨?_, ?_, ?_⟩
    · intro id c hreg
      exact hone c (List.mem_map.2 ⟨(id, c), lookupEntries_mem hreg, rfl⟩)
    · intro c hc
      have hnot : c ∉ w.broker.users.entries.map Prod.snd := by
        intro hmem
        obtain ⟨p, hp, hpc⟩ := List.mem_map.1 hmem
        obtain ⟨k, v⟩ := p
        cases hpc
        exact hc k (lookupEntries_of_mem w.broker.users.nodupKeys hp)
      show route w.broker.users msg w.chans c = w.chans c
      rw [route_broadcast w.broker.users msg w.chans hb c, List.count_eq_zero_of_not_mem hnot]
      simp
    · have hmap : (w.broker.users.entries.map Prod.snd).map
            (delivered w.chans (route w.broker.users msg w.chans))
          = (w.broker.users.entries.map Prod.snd).map (fun _ => 1) := by
        apply List.map_congr_left
        intro c hc
        simp [delivered, hone c hc]
      show ((w.broker.users.entries.map Prod.snd).map
        (delivered w.chans (route w.broker.users msg w.chans))).sum = _
      rw [hmap, sum_map_one, List.length_map]

/-- Witness of C1: alice and bob on the endpoints 0 and 1, the broadcast message pending; both
endpoints receive it once, channel 2 receives nothing, and there are two deliveries. -/
theorem broadcast_fans_out_witness :
    ∃ w1, runIter Pick.case0 (scenario false [msgHi]) = some w1 ∧
      w1.chans 0 = [msgHi] ∧ w1.chans 1 = [msgHi] ∧ w1.chans 2 = [] ∧
      (([1, 0] : List Chan).map (delivered noMessages w1.chans)).sum = 2 := by
  obtain ⟨w1, h1, _, _, _, _, _, h6⟩ :=
    broadcast_fans_out (scenario false [msgHi]) msgHi [] Pick.case0 rfl rfl (Or.inl rfl) rfl
  obtain ⟨ha, hb, hc⟩ := h6 (by decide)
  refine ⟨w1, h1, ha "alice" 0 rfl, ha "bob" 1 rfl, hb 2 ?_, hc⟩
  intro id h
  have hent : (scenario false [msgHi]).broker.users.entries = [("bob", 1), ("alice", 0)] := by
    decide
  have hmem := lookupEntries_mem h
  rw [hent] at hmem
  simp at hmem

/-- Counterexample to C2 as stated: alice and bob are registered with the same channel 0.  The pass
that dequeues a unicast message for alice appends it to channel 0, which is the endpoint of the
other registered identifier bob as well, so the endpoint of bob does not stay unchanged. -/
theorem unicast_reaches_shared_endpoint :
    (sharedEndpoint [msgPsst]).broker.users.lookup "alice" = some 0 ∧
    (sharedEndpoint [msgPsst]).broker.users.lookup "bob" = some 0 ∧
    msgPsst.Broadcast = false ∧ msgPsst.Recipient = "alice" ∧
    (sharedEndpoint [msgPsst]).chans 0 = [] ∧
    (runIter Pick.case0 (sharedEndpoint [msgPsst])).map (fun v => v.chans 0)
      = some [msgPsst] := by
  refine ⟨rfl, rfl, rfl, rfl, rfl, ?_⟩
  decide

/-- C2, amended: one pass of the routing loop that dequeues a unicast message whose `Recipient` is
registered appends the message once to the recipient's endpoint and leaves every other channel
unchanged; so the endpoint of any other registered identifier is unchanged unless it is the very
channel of the recipient, and the endpoint of every other registered identifier is unchanged when
the registered endpoints are pairwise distinct.  The registry is unchanged and the message leaves
the queue. -/
theorem unicast_reaches_recipient_only (w : World) (msg : Message) (rest : List Message)
    (pick : Pick) (dest : Chan)
    (hrun : w.loop = LoopState.running) (hq : w.broker.input.buf = msg :: rest)
    (hsel : w.broker.ctx = false ∨ pick = Pick.case1) (hb : msg.Broadcast = false)
    (hreg : w.broker.users.lookup msg.Recipient = some dest) :
    ∃ w1, runIter pick w = some w1 ∧
      w1.broker.users = w.broker.users ∧ w1.broker.input.buf = rest ∧
      w1.loop = LoopState.running ∧
      w1.chans dest = w.chans dest ++ [msg] ∧
      (∀ c, c ≠ dest → w1.chans c = w.chans c) ∧
      (∀ id c, id ≠ msg.Recipient → w.broker.users.lookup id = some c → c ≠ dest →
        w1.chans c = w.chans c) ∧
      ((w.broker.users.entries.map Prod.snd).Nodup →
        ∀ id c, id ≠ msg.Recipient → w.broker.users.lookup id = some c →
          w1.chans c = w.chans c) := by
  obtain ⟨w1, h1, h2, h3, h4, h5, h6, h7⟩ :=
    unicast_step w msg rest pick dest hrun hq hsel hb hreg
  refine ⟨w1, h1, h2, h3, h4, h5, h6, h7, ?_⟩
  intro hnd id c hid hlook
  have hne : c ≠ dest := by
    intro hc
    subst hc
    have heq :=
      List.inj_on_of_nodup_map hnd (lookupEntries_mem hlook) (lookupEntries_mem hreg) rfl
    exact hid (congrArg Prod.fst heq)
  exact h7 id c hid hlook hne

/-- Witness of C2, amended: alice and bob on the endpoints 0 and 1; a unicast message to alice reaches
endpoint 0 and not endpoint 1. -/
theorem unicast_reaches_recipient_only_witness :
    ∃ w1, runIter Pick.case0 (scenario false [msgPsst]) = some w1 ∧
      w1.chans 0 = [msgPsst] ∧ w1.chans 1 = [] := by
  obtain ⟨w1, h1, _, _, _, h5, _, _, h8⟩ :=
    unicast_reaches_recipient_only (scenario false [msgPsst]) msgPsst [] Pick.case0 0
      rfl rfl (Or.inl rfl) rfl rfl
  exact ⟨w1, h1, h5, h8 (by decide) "bob" 1 (by decide) rfl⟩

/-- C3: on a running broker that is not cancelled, with `r` registered on `c`.
First part: SendMessage calls for `ms`, as many as the queue has room for, are all accepted, and
after as many passes of the loop as there are pending messages the queue is empty and the channels
are those obtained by handling the earlier pending messages and then `ms`, one message at a time in
call order; when all of `ms` are unicast messages for `r`, the endpoint `c` has received, after what
the earlier pending messages brought, exactly `ms` in that order, and `ms` has reached no other
channel.  With an empty queue at the start, `c` has received exactly `ms`.
Second part, for every interleaving of accepted SendMessage calls and passes of the loop: the
handled messages followed by the pending ones are the initially pending ones followed by the
accepted ones in call order, and when all of these are unicast messages for `r`, what `c` has
received followed by the queue is that sequence. -/
theorem unicast_fifo_order (w : World) (r : String) (c : Chan)
    (hrun : w.loop = LoopState.running) (hctx : w.broker.ctx = false)
    (hreg : w.broker.users.lookup r = some c) :
    (∀ (ms : List Message) (picks : List Pick) (p : Pick),
      w.broker.input.buf.length + ms.length ≤ w.broker.input.cap →
      picks.length = w.broker.input.buf.length + ms.length →
      ∃ w1, exec (ms.map (Event.send p) ++ picks.map Event.iter) w = some w1 ∧
        w1.broker.input.buf = [] ∧ w1.broker.users = w.broker.users ∧
        w1.chans
          = (w.broker.input.buf ++ ms).foldl (fun acc m => route w.broker.users m acc) w.chans ∧
        ((∀ m ∈ ms, m.Broadcast = false ∧ m.Recipient = r) →
          w1.chans c
            = (w.broker.input.buf.foldl (fun acc m => route w.broker.users m acc) w.chans) c
              ++ ms ∧
          (∀ c2, c2 ≠ c → w1.chans c2
            = (w.broker.input.buf.foldl (fun acc m => route w.broker.users m acc) w.chans) c2) ∧
          (w.broker.input.buf = [] →
            w1.chans c = w.chans c ++ ms ∧ ∀ c2, c2 ≠ c → w1.chans c2 = w.chans c2))) ∧
    (∀ (evs : List Event) (w1 : World), exec evs w = some w1 →
      w1.broker.users = w.broker.users ∧
      ∃ handled, handled ++ w1.broker.input.buf = w.broker.input.buf ++ sentMessages evs ∧
        w1.chans = handled.foldl (fun acc m => route w.broker.users m acc) w.chans ∧
        ((∀ m ∈ w.broker.input.buf ++ sentMessages evs, m.Broadcast = false ∧ m.Recipient = r) →
          w1.chans c ++ w1.broker.input.buf
            = w.chans c ++ (w.broker.input.buf ++ sentMessages evs))) := by
  constructor
  · intro ms picks p hcap hlen
    have hsend := exec_sends p ms w hctx hcap
    have hiter := exec_iters picks
      { w with broker := { w.broker with
          input := { w.broker.input with buf := w.broker.input.buf ++ ms } } }
      hrun hctx (by simpa using hlen)
    have hall := exec_append (ms.map (Event.send p)) (picks.map Event.iter) w
    rw [hsend, Option.some_bind, hiter] at hall
    refine ⟨_, hall, rfl, rfl, rfl, ?_⟩
    intro hms
    have hc : ∀ c2, ((w.broker.input.buf ++ ms).foldl
          (fun acc m => route w.broker.users m acc) w.chans) c2
        = if c2 = c then
            (w.broker.input.buf.foldl (fun acc m => route w.broker.users m acc) w.chans) c2 ++ ms
          else (w.broker.input.buf.foldl (fun acc m => route w.broker.users m acc) w.chans) c2 := by
      intro c2
      rw [List.foldl_append, foldl_route_unicast w.broker.users hreg ms hms]
    refine ⟨?_, ?_, ?_⟩
    · show ((w.broker.input.buf ++ ms).foldl _ w.chans) c = _
      rw [hc c]
      simp
    · intro c2 hc2
      show ((w.broker.input.buf ++ ms).foldl _ w.chans) c2 = _
      rw [hc c2]
      simp [hc2]
    · intro hempty
      constructor
      · show ((w.broker.input.buf ++ ms).foldl _ w.chans) c = _
        rw [hc c, hempty]
        simp
      · intro c2 hc2
        show ((w.broker.input.buf ++ ms).foldl _ w.chans) c2 = _
        rw [hc c2, hempty]
        simp [hc2]
  · intro evs w1 h
    obtain ⟨_, _, husers, handled, h4, h5⟩ := exec_fifo evs w w1 hrun hctx h
    refine ⟨husers, handled, h4, h5, ?_⟩
    intro hms
    have hh : ∀ m ∈ handled, m.Broadcast = false ∧ m.Recipient = r := by
      intro m hm
      apply hms
      rw [← h4]
      exact List.mem_append_left _ hm
    rw [h5, foldl_route_unicast w.broker.users hreg handled hh, ← h4]
    simp

/-- Witness of C3: two unicast messages for alice are sent and then handled; endpoint 0 receives
them in send order and endpoint 1 receives nothing. -/
theorem unicast_fifo_order_witness :
    ∃ w1, exec [Event.send Pick.case0 msgPsst, Event.send Pick.case0 msgAgain,
        Event.iter Pick.case0, Event.iter Pick.case1] (scenario false []) = some w1 ∧
      w1.broker.input.buf = [] ∧ w1.chans 0 = [msgPsst, msgAgain] ∧ w1.chans 1 = [] := by
  obtain ⟨w1, h1, h2, _, _, h5⟩ :=
    (unicast_fifo_order (scenario false []) "alice" 0 rfl rfl rfl).1
      [msgPsst, msgAgain] [Pick.case0, Pick.case1] Pick.case0 (by decide) rfl
  obtain ⟨h6, h7⟩ := (h5 (by decide)).2.2 rfl
  exact ⟨w1, h1, h2, h6, h7 1 (by decide)⟩

/-- C4: on a broker whose context is cancelled, SendMessage returns the error "broker is closed"
and the state (queue, registry, channels, loop) is the one before the call, whatever the message,
the runtime choice and the room left in the queue. -/
theorem send_after_cancel_is_refused (w : World) (msg : Message) (pick : Pick)
    (hctx : w.broker.ctx = true) :
    World.SendMessage pick w msg = some (some "broker is closed", w) := by
  simp [World.SendMessage, SendMessage, hctx, errBrokerClosed]

/-- Witness of C4: a cancelled broker with an empty queue of capacity 100. -/
theorem send_after_cancel_is_refused_witness :
    (scenario true []).broker.ctx = true ∧
    (scenario true []).broker.input.buf.length < (scenario true []).broker.input.cap ∧
    World.SendMessage Pick.case0 (scenario true []) msgHi
      = some (some "broker is closed", scenario true []) :=
  ⟨rfl, by decide, send_after_cancel_is_refused (scenario true []) msgHi Pick.case0 rfl⟩

/-- C5: a unicast message whose `Recipient` is not registered.  On a broker that is not cancelled
and has room in its queue, SendMessage returns nil and appends the message to the queue; and the
pass of the loop that dequeues such a message sends on no channel and leaves the registry
unchanged. -/
theorem unknown_recipient_is_dropped (w : World) (msg : Message) (pick : Pick)
    (hctx : w.broker.ctx = false) (hroom : w.broker.input.buf.length < w.broker.input.cap)
    (hb : msg.Broadcast = false) (hreg : w.broker.users.lookup msg.Recipient = none) :
    World.SendMessage pick w msg = some (none, { w with
      broker := { w.broker with
        input := { w.broker.input with buf := w.broker.input.buf ++ [msg] } } }) ∧
    ∀ (v : World) (rest : List Message) (p : Pick), v.loop = LoopState.running →
      v.broker.users = w.broker.users → v.broker.input.buf = msg :: rest →
      (v.broker.ctx = false ∨ p = Pick.case1) →
      ∃ v1, runIter p v = some v1 ∧ v1.chans = v.chans ∧ v1.broker.users = v.broker.users ∧
        v1.broker.input.buf = rest ∧ v1.loop = LoopState.running := by
  constructor
  · simp [World.SendMessage, SendMessage_accept pick w.broker msg hctx hroom]
  · intro v rest p hrun husers hq hsel
    refine ⟨_, runIter_dequeue v msg rest p hrun hq hsel, ?_, rfl, rfl, hrun⟩
    show route v.broker.users msg v.chans = v.chans
    rw [husers]
    exact route_unicast_none _ _ _ hb hreg

/-- Witness of C5: carol is not registered; the message for her is accepted, and handling it
leaves the endpoints of alice and bob empty. -/
theorem unknown_recipient_is_dropped_witness :
    (∃ w1, World.SendMessage Pick.case0 (scenario false []) msgCarol = some (none, w1) ∧
      w1.broker.input.buf = [msgCarol]) ∧
    ∃ v1, runIter Pick.case0 (scenario false [msgCarol]) = some v1 ∧
      v1.chans = noMessages ∧ v1.broker.input.buf = [] := by
  have h := unknown_recipient_is_dropped (scenario false []) msgCarol Pick.case0 rfl
    (by decide) rfl rfl
  refine ⟨⟨_, h.1, rfl⟩, ?_⟩
  obtain ⟨v1, h1, h2, _, h4, _⟩ :=
    h.2 (scenario false [msgCarol]) [] Pick.case0 rfl rfl rfl (Or.inl rfl)
  exact ⟨v1, h1, h2, h4⟩

/-- C6: after RegisterUser(id, e1) and then RegisterUser(id, e2) the registry maps `id` to `e2`, its
only entry for `id` is the one with `e2`, every other identifier is mapped as before, and queue,
channels and loop are untouched.  In every later state with this registry, the pass of the loop
that dequeues a unicast message for `id` appends it exactly once to `e2` and sends on no other
channel: the replaced endpoint `e1`, a channel other than `e2`, receives nothing. -/
theorem register_twice_last_wins (w : World) (id : String) (e1 e2 : Chan) :
    ((w.RegisterUser id e1).RegisterUser id e2).broker.users.lookup id = some e2 ∧
    ((w.RegisterUser id e1).RegisterUser id e2).broker.users.entries.filter
      (fun p => decide (p.1 = id)) = [(id, e2)] ∧
    (∀ other, other ≠ id →
      ((w.RegisterUser id e1).RegisterUser id e2).broker.users.lookup other
        = w.broker.users.lookup other) ∧
    ((w.RegisterUser id e1).RegisterUser id e2).chans = w.chans ∧
    ((w.RegisterUser id e1).RegisterUser id e2).broker.input = w.broker.input ∧
    ((w.RegisterUser id e1).RegisterUser id e2).loop = w.loop ∧
    ∀ (v : World) (msg : Message) (rest : List Message) (pick : Pick),
      v.broker.users = ((w.RegisterUser id e1).RegisterUser id e2).broker.users →
      v.loop = LoopState.running → v.broker.input.buf = msg :: rest →
      (v.broker.ctx = false ∨ pick = Pick.case1) →
      msg.Broadcast = false → msg.Recipient = id →
      ∃ v1, runIter pick v = some v1 ∧ v1.chans e2 = v.chans e2 ++ [msg] ∧
        (∀ c, c ≠ e2 → v1.chans c = v.chans c) ∧ (e1 ≠ e2 → v1.chans e1 = v.chans e1) := by
  have hlook : ((w.RegisterUser id e1).RegisterUser id e2).broker.users.lookup id = some e2 :=
    Registry.lookup_insert_self _ id e2
  refine ⟨hlook, filter_key_insert _ id e2, ?_, rfl, rfl, rfl, ?_⟩
  · intro other hne
    show ((w.broker.users.insert id e1).insert id e2).lookup other = _
    rw [Registry.lookup_insert_ne _ e2 hne, Registry.lookup_insert_ne _ e1 hne]
  · intro v msg rest pick husers hrun hq hsel hb hrec
    have hreg : v.broker.users.lookup msg.Recipient = some e2 := by
      rw [husers, hrec]
      exact hlook
    obtain ⟨v1, h1, _, _, _, h5, h6, _⟩ :=
      unicast_step v msg rest pick e2 hrun hq hsel hb hreg
    exact ⟨v1, h1, h5, h6, fun hne => h6 e1 hne⟩

/-- Witness of C6: alice registers on endpoint 0 and then on endpoint 5; a unicast message for her
reaches endpoint 5 and not endpoint 0. -/
theorem register_twice_last_wins_witness :
    (((scenario false [msgPsst]).RegisterUser "alice" 0).RegisterUser "alice" 5).broker.users.lookup
      "alice" = some 5 ∧
    ∃ v1, runIter Pick.case0
        (((scenario false [msgPsst]).RegisterUser "alice" 0).RegisterUser "alice" 5) = some v1 ∧
      v1.chans 5 = [msgPsst] ∧ v1.chans 0 = [] := by
  have h := register_twice_last_wins (scenario false [msgPsst]) "alice" 0 5
  refine ⟨h.1, ?_⟩
  obtain ⟨v1, h1, h2, _, h4⟩ := h.2.2.2.2.2.2
    (((scenario false [msgPsst]).RegisterUser "alice" 0).RegisterUser "alice" 5)
    msgPsst [] Pick.case0 rfl rfl rfl (Or.inl rfl) rfl rfl
  exact ⟨v1, h1, h2, h4 (by decide)⟩

/-- C7: UnregisterUser(id) on a broker where `id` is not registered leaves the whole state as it
was (the function has no result, so there is no error to signal).  Where `id` is registered,
afterwards `id` is not registered, every other identifier is mapped as before, queue, channels,
context and loop are untouched, and in every later state with this registry the pass of the loop
that dequeues a unicast message for `id` sends on no channel. -/
theorem unregister_removes_only_id (w : World) (id : String) :
    (w.broker.users.lookup id = none → w.UnregisterUser id = w) ∧
    (∀ c, w.broker.users.lookup id = some c →
      (w.UnregisterUser id).broker.users.lookup id = none ∧
      (w.UnregisterUser id).broker.users.entries
        = w.broker.users.entries.filter (fun p => decide (p ≠ (id, c)))) ∧
    (∀ other, other ≠ id →
      (w.UnregisterUser id).broker.users.lookup other = w.broker.users.lookup other) ∧
    (w.UnregisterUser id).chans = w.chans ∧
    (w.UnregisterUser id).broker.input = w.broker.input ∧
    (w.UnregisterUser id).broker.ctx = w.broker.ctx ∧
    (w.UnregisterUser id).loop = w.loop ∧
    ∀ (v : World) (msg : Message) (rest : List Message) (pick : Pick),
      v.broker.users = (w.UnregisterUser id).broker.users →
      v.loop = LoopState.running → v.broker.input.buf = msg :: rest →
      (v.broker.ctx = false ∨ pick = Pick.case1) →
      msg.Broadcast = false → msg.Recipient = id →
      ∃ v1, runIter pick v = some v1 ∧ v1.chans = v.chans ∧
        v1.broker.users = v.broker.users := by
  have hgone : (w.UnregisterUser id).broker.users.lookup id = none :=
    Registry.lookup_erase_self _ id
  refine ⟨?_, ?_, ?_, rfl, rfl, rfl, rfl, ?_⟩
  · intro hnone
    show ({ w with broker := { w.broker with users := w.broker.users.erase id } } : World) = w
    rw [Registry.erase_of_lookup_none _ hnone]
  · intro c hsome
    refine ⟨hgone, ?_⟩
    show eraseEntries id w.broker.users.entries = _
    unfold eraseEntries
    apply List.filter_congr
    intro p hp
    obtain ⟨k, v⟩ := p
    by_cases hk : k = id
    · subst hk
      have hv : lookupEntries w.broker.users.entries k = some v :=
        lookupEntries_of_mem w.broker.users.nodupKeys hp
      have hvc : v = c := by
        have h2 : some v = some c := by
          rw [← hv]
          exact hsome
        exact Option.some.inj h2
      simp [hvc]
    · simp [hk]
  · intro other hne
    exact Registry.lookup_erase_ne _ hne
  · intro v msg rest pick husers hrun hq hsel hb hrec
    have hreg : v.broker.users.lookup msg.Recipient = none := by
      rw [husers, hrec]
      exact hgone
    refine ⟨_, runIter_dequeue v msg rest pick hrun hq hsel, ?_, rfl⟩
    show route v.broker.users msg v.chans = v.chans
    exact route_unicast_none _ _ _ hb hreg

/-- Witness of C7: carol is not registered, so unregistering her changes nothing; after alice is
unregistered bob is still on endpoint 1 and a unicast message for alice is dropped. -/
theorem unregister_removes_only_id_witness :
    (scenario false [msgPsst]).UnregisterUser "carol" = scenario false [msgPsst] ∧
    ((scenario false [msgPsst]).UnregisterUser "alice").broker.users.lookup "alice" = none ∧
    ((scenario false [msgPsst]).UnregisterUser "alice").broker.users.lookup "bob" = some 1 ∧
    ∃ v1, runIter Pick.case0 ((scenario false [msgPsst]).UnregisterUser "alice") = some v1 ∧
      v1.chans = noMessages := by
  have h := unregister_removes_only_id (scenario false [msgPsst]) "alice"
  refine ⟨(unregister_removes_only_id (scenario false [msgPsst]) "carol").1 rfl,
    (h.2.1 0 rfl).1, (h.2.2.1 "bob" (by decide)).trans rfl, ?_⟩
  obtain ⟨v1, h1, h2, _⟩ := h.2.2.2.2.2.2.2
    ((scenario false [msgPsst]).UnregisterUser "alice") msgPsst [] Pick.case0
    rfl rfl rfl (Or.inl rfl) rfl rfl
  exact ⟨v1, h1, h2⟩

/-- C8: on a broker that is not cancelled and whose queue, of capacity 100, holds fewer than 100
messages, SendMessage returns nil (it does not block) and the state afterwards is the state before
with the very message appended at the tail of the queue: registry, channels, context and loop are
unchanged.  The queue made by NewBroker is empty and has capacity 100. -/
theorem send_with_room_is_accepted (w : World) (msg : Message) (pick : Pick)
    (hctx : w.broker.ctx = false) (hcap : w.broker.input.cap = 100)
    (hroom : w.broker.input.buf.length < 100) :
    World.SendMessage pick w msg = some (none, { w with
      broker := { w.broker with
        input := { cap := 100, buf := w.broker.input.buf ++ [msg] } } }) ∧
    ∀ ctx, (NewBroker ctx).input.cap = 100 ∧ (NewBroker ctx).input.buf = [] := by
  constructor
  · have hlt : w.broker.input.buf.length < w.broker.input.cap := by omega
    simp [World.SendMessage, SendMessage_accept pick w.broker msg hctx hlt, hcap]
  · intro ctx
    exact ⟨rfl, rfl⟩

/-- Witness of C8: a message sent to the broker of the scenario, which has one message pending. -/
theorem send_with_room_is_accepted_witness :
    ∃ w1, World.SendMessage Pick.case1 (scenario false [msgHi]) msgPsst = some (none, w1) ∧
      w1.broker.input.buf = [msgHi, msgPsst] ∧
      w1.broker.users = (scenario false [msgHi]).broker.users :=
  ⟨_, (send_with_room_is_accepted (scenario false [msgHi]) msgPsst Pick.case1 rfl rfl
    (by decide)).1, rfl, rfl⟩

/-- C9: on a broker whose queue is full, SendMessage has no result while the context is not
cancelled (the call is blocked and the state stays as it is), and returns "broker is closed" with
the state unchanged when the context is cancelled; a call blocked in its select returns that error
once the context is cancelled; the call never returns nil and never changes the queue.  In every
run of the system the capacity stays the same and the queue never holds more than its capacity,
which is 100 for a broker made by NewBroker. -/
theorem send_on_full_queue (w : World) (msg : Message) (pick : Pick)
    (hfull : w.broker.input.buf.length = w.broker.input.cap) :
    (w.broker.ctx = false → World.SendMessage pick w msg = none) ∧
    (w.broker.ctx = true →
      World.SendMessage pick w msg = some (some "broker is closed", w)) ∧
    sendSelect pick (cancel w.broker) msg = some (some "broker is closed", cancel w.broker) ∧
    (∀ r, World.SendMessage pick w msg = some r → r.1 = some "broker is closed" ∧ r.2 = w) ∧
    (∀ (evs : List Event) (w1 : World), exec evs w = some w1 →
      w1.broker.input.cap = w.broker.input.cap ∧
      w1.broker.input.buf.length ≤ w.broker.input.cap) ∧
    ∀ ctx, (NewBroker ctx).input.cap = 100 := by
  have hnot : ¬ w.broker.input.buf.length < w.broker.input.cap := by omega
  refine ⟨?_, ?_, ?_, ?_, ?_, fun _ => rfl⟩
  · intro hctx
    simp [World.SendMessage, SendMessage, sendSelect, select2, hctx, hnot]
  · intro hctx
    simp [World.SendMessage, SendMessage, hctx, errBrokerClosed]
  · simp [sendSelect, cancel, select2, hnot, errBrokerClosed]
  · intro r hr
    cases hctx : w.broker.ctx with
    | false => simp [World.SendMessage, SendMessage, sendSelect, select2, hctx, hnot] at hr
    | true =>
      simp [World.SendMessage, SendMessage, hctx, errBrokerClosed] at hr
      subst hr
      exact ⟨rfl, rfl⟩
  · intro evs w1 h
    obtain ⟨h1, h2⟩ := exec_bound evs w w1 h (by omega)
    exact ⟨h1, by omega⟩

/-- Witness of C9: the queue of the scenario holds 100 messages; a call blocks while the context is
not cancelled and returns the error when it is. -/
theorem send_on_full_queue_witness :
    (scenario false (List.replicate 100 msgHi)).broker.input.buf.length = 100 ∧
    World.SendMessage Pick.case0 (scenario false (List.replicate 100 msgHi)) msgPsst = none ∧
    World.SendMessage Pick.case0 (scenario true (List.replicate 100 msgHi)) msgPsst
      = some (some "broker is closed", scenario true (List.replicate 100 msgHi)) :=
  ⟨by simp [scenario],
    (send_on_full_queue (scenario false (List.replicate 100 msgHi)) msgPsst Pick.case0
      (by simp [scenario])).1 rfl,
    (send_on_full_queue (scenario true (List.replicate 100 msgHi)) msgPsst Pick.case0
      (by simp [scenario])).2.1 rfl⟩

/-- Counterexample to C10 as stated: a unicast message for alice is pending when the context is
cancelled.  Both cases of the select of Run are then ready; when the runtime picks the receive case
the pass dequeues the message and delivers it to endpoint 0, and the loop is still running. -/
theorem cancelled_loop_may_still_deliver :
    (World.cancel (scenario false [msgPsst])).loop = LoopState.running ∧
    (World.cancel (scenario false [msgPsst])).broker.ctx = true ∧
    (World.cancel (scenario false [msgPsst])).broker.input.buf = [msgPsst] ∧
    (World.cancel (scenario false [msgPsst])).chans 0 = [] ∧
    (runIter Pick.case1 (World.cancel (scenario false [msgPsst]))).map
        (fun v => (v.loop, v.broker.input.buf, v.chans 0))
      = some (LoopState.running, [], [msgPsst]) := by
  refine ⟨rfl, rfl, rfl, rfl, ?_⟩
  decide

/-- C10, amended: with the context cancelled, a pass of the loop in which the select takes the
cancellation case stops without dequeuing: queue, registry and channels are as before, so no
pending message is delivered, the loop is stopped and `done` is closed, and no further pass
happens.  This is the pass that happens whenever the queue is empty.  While a message is pending
the receive case is ready as well and the select may take it instead: that pass dequeues and
handles the head of the queue, and the loop keeps running. -/
theorem cancelled_loop_pass (w : World) (pick : Pick) (hrun : w.loop = LoopState.running)
    (hctx : w.broker.ctx = true) :
    ((pick = Pick.case0 ∨ w.broker.input.buf = []) →
      runIter pick w
        = some { w with loop := LoopState.stopped, broker := { w.broker with done := true } }) ∧
    (∀ p, runIter p
      { w with loop := LoopState.stopped, broker := { w.broker with done := true } } = none) ∧
    (∀ msg rest, pick = Pick.case1 → w.broker.input.buf = msg :: rest →
      runIter pick w = some { w with
        broker := { w.broker with input := { w.broker.input with buf := rest } }
        chans := route w.broker.users msg w.chans }) := by
  refine ⟨runIter_stop w pick hrun hctx, ?_, ?_⟩
  · intro p
    simp [runIter]
  · intro msg rest hp hq
    exact runIter_dequeue w msg rest pick hrun hq (Or.inr hp)

/-- Witness of C10, amended: the context is cancelled and a message for alice is pending; the pass
that takes the cancellation case stops the loop, the message stays in the queue and endpoint 0
stays empty. -/
theorem cancelled_loop_pass_witness :
    ∃ w1, runIter Pick.case0 (scenario true [msgPsst]) = some w1 ∧
      w1.loop = LoopState.stopped ∧ w1.broker.done = true ∧
      w1.broker.input.buf = [msgPsst] ∧ w1.chans 0 = [] :=
  ⟨_, (cancelled_loop_pass (scenario true [msgPsst]) Pick.case0 rfl rfl).1 (Or.inl rfl),
    rfl, rfl, rfl, rfl⟩

/-! ## The lifecycle of the routing loop -/

theorem SendMessage_frame (pick : Pick) (b b1 : Broker) (msg : Message) (e : Option String)
    (h : SendMessage pick b msg = some (e, b1)) :
    b1.ctx = b.ctx ∧ b1.done = b.done ∧ b1.users = b.users := by
  unfold SendMessage sendSelect at h
  cases hctx : b.ctx <;> cases hroom : decide (b.input.buf.length < b.input.cap) <;>
    cases pick <;> simp [hctx, hroom, select2] at h <;> obtain ⟨_, h2⟩ := h <;> subst h2 <;>
    simp [hctx]

/-- A step keeps the loop state and the channels, unless it is the call of Run or a pass of the
loop; no step but the cancellation changes the context, and it only sets it. -/
theorem act_frame (a : Action) (w w1 : World) (h : act a w = some w1) :
    (w.broker.ctx = true → w1.broker.ctx = true) ∧
    ((∀ pick, a ≠ Action.iter pick) → a ≠ Action.start →
      w1.loop = w.loop ∧ w1.chans = w.chans ∧ w1.broker.done = w.broker.done ∧
      (a ≠ Action.cancel → w1.broker.ctx = w.broker.ctx)) := by
  cases a with
  | start =>
    refine ⟨?_, fun _ hs => absurd rfl hs⟩
    intro hctx
    cases hl : w.loop <;> simp [act, Run, runIters, hl] at h
    subst h
    exact hctx
  | iter pick =>
    refine ⟨?_, fun hi _ => absurd rfl (hi pick)⟩
    intro hctx
    obtain ⟨_, hstop | ⟨msg, rest, _, hw1⟩⟩ := runIter_cases pick w w1 h
    · rw [hstop.2]
      exact hctx
    · rw [hw1]
      exact hctx
  | send pick msg =>
    simp only [act, World.SendMessage] at h
    cases hs : SendMessage pick w.broker msg with
    | none => simp [hs] at h
    | some r =>
      obtain ⟨e, b1⟩ := r
      simp [hs] at h
      subst h
      obtain ⟨h1, h2, _⟩ := SendMessage_frame pick w.broker b1 msg e hs
      exact ⟨fun hctx => by simpa [h1] using hctx, fun _ _ => ⟨rfl, rfl, h2, fun _ => h1⟩⟩
  | register userID recv =>
    simp only [act, Option.some.injEq] at h
    subst h
    exact ⟨fun hctx => hctx, fun _ _ => ⟨rfl, rfl, rfl, fun _ => rfl⟩⟩
  | unregister userID =>
    simp only [act, Option.some.injEq] at h
    subst h
    exact ⟨fun hctx => hctx, fun _ _ => ⟨rfl, rfl, rfl, fun _ => rfl⟩⟩
  | cancel =>
    simp only [act, Option.some.injEq] at h
    subst h
    exact ⟨fun _ => rfl, fun _ _ => ⟨rfl, rfl, rfl, fun hc => absurd rfl hc⟩⟩

/-- Invariant of the reachable states: the loop is stopped only with the context cancelled, and
`done` is closed exactly when the loop is stopped. -/
theorem reachable_inv (w : World) (h : Reachable w) :
    (w.loop = LoopState.stopped → w.broker.ctx = true) ∧
    (w.broker.done = true ↔ w.loop = LoopState.stopped) := by
  induction h with
  | init ctx chans => simp [World.init, NewBroker]
  | @step w w1 a _ hact ih =>
    obtain ⟨ih1, ih2⟩ := ih
    cases a with
    | start =>
      cases hl : w.loop <;> simp [act, Run, runIters, hl] at hact
      subst hact
      have hdone : ¬ w.broker.done = true := fun hd => by
        have := ih2.1 hd
        rw [hl] at this
        cases this
      simpa using hdone
    | iter pick =>
      obtain ⟨hrun, hstop | ⟨msg, rest, _, hw1⟩⟩ := runIter_cases pick w w1 hact
      · rw [hstop.2]
        simp [hstop.1]
      · rw [hw1]
        have hdone : ¬ w.broker.done = true := fun hd => by
          have := ih2.1 hd
          rw [hrun] at this
          cases this
        simpa [hrun] using hdone
    | send pick msg =>
      obtain ⟨hctx, hframe⟩ := act_frame _ w w1 hact
      obtain ⟨h1, _, h3, _⟩ := hframe (fun _ hne => by cases hne) (fun hne => by cases hne)
      rw [h1, h3]
      exact ⟨fun hs => hctx (ih1 hs), ih2⟩
    | register userID recv =>
      obtain ⟨hctx, hframe⟩ := act_frame _ w w1 hact
      obtain ⟨h1, _, h3, _⟩ := hframe (fun _ hne => by cases hne) (fun hne => by cases hne)
      rw [h1, h3]
      exact ⟨fun hs => hctx (ih1 hs), ih2⟩
    | unregister userID =>
      obtain ⟨hctx, hframe⟩ := act_frame _ w w1 hact
      obtain ⟨h1, _, h3, _⟩ := hframe (fun _ hne => by cases hne) (fun hne => by cases hne)
      rw [h1, h3]
      exact ⟨fun hs => hctx (ih1 hs), ih2⟩
    | cancel =>
      simp only [act, Option.some.injEq] at hact
      subst hact
      exact ⟨fun _ => rfl, ih2⟩

theorem reachable_stoppedWorld : Reachable stoppedWorld := by
  have h0 := Reachable.init false noMessages
  have h1 : Reachable startedWorld := Reachable.step Action.start h0 rfl
  have h2 : Reachable startedWorld.cancel := Reachable.step Action.cancel h1 rfl
  exact Reachable.step (Action.iter Pick.case0) h2 rfl

/-- C16: in every state reached from a fresh broker by calling Run once and by any passes of the
loop, SendMessage, RegisterUser and UnregisterUser calls and cancellations, the loop is stopped
only if the context is cancelled, `done` is closed exactly when the loop is stopped, hence never
while the context is not cancelled.  A broker fresh from NewBroker is not routing (its loop has
not started, no pass of the loop can happen), `done` is open, and its registry and queue are
empty.  Stopped is terminal: from a stopped state no pass of the loop happens, Run is not entered
again, and every step that happens leaves the loop stopped, `done` closed and all channels as they
were. -/
theorem stopped_only_after_cancel :
    (∀ w, Reachable w →
      (w.loop = LoopState.stopped → w.broker.ctx = true) ∧
      (w.broker.done = true ↔ w.loop = LoopState.stopped) ∧
      (w.broker.ctx = false → w.broker.done = false)) ∧
    (∀ ctx chans,
      (World.init ctx chans).loop = LoopState.idle ∧
      (World.init ctx chans).broker = NewBroker ctx ∧
      (NewBroker ctx).users.entries = [] ∧ (NewBroker ctx).input.buf = [] ∧
      (NewBroker ctx).done = false ∧
      ∀ pick, runIter pick (World.init ctx chans) = none) ∧
    (∀ w, w.loop = LoopState.stopped →
      (∀ pick, runIter pick w = none) ∧ (∀ picks, Run picks w = none) ∧
      ∀ a w1, act a w = some w1 →
        w1.loop = LoopState.stopped ∧ w1.chans = w.chans ∧ w1.broker.done = w.broker.done) := by
  refine ⟨?_, ?_, ?_⟩
  · intro w h
    obtain ⟨h1, h2⟩ := reachable_inv w h
    refine ⟨h1, h2, ?_⟩
    intro hctx
    cases hd : w.broker.done with
    | false => rfl
    | true =>
      have := h1 (h2.1 hd)
      rw [hctx] at this
      cases this
  · intro ctx chans
    exact ⟨rfl, rfl, rfl, rfl, rfl, fun _ => rfl⟩
  · intro w hs
    refine ⟨fun pick => by simp [runIter, hs], fun picks => by simp [Run, hs], ?_⟩
    intro a w1 hact
    cases a with
    | start => simp [act, Run, hs] at hact
    | iter pick => simp [act, runIter, hs] at hact
    | send pick msg =>
      obtain ⟨h1, h2, h3, _⟩ :=
        (act_frame _ w w1 hact).2 (fun _ hne => by cases hne) (fun hne => by cases hne)
      exact ⟨h1.trans hs, h2, h3⟩
    | register userID recv =>
      obtain ⟨h1, h2, h3, _⟩ :=
        (act_frame _ w w1 hact).2 (fun _ hne => by cases hne) (fun hne => by cases hne)
      exact ⟨h1.trans hs, h2, h3⟩
    | unregister userID =>
      obtain ⟨h1, h2, h3, _⟩ :=
        (act_frame _ w w1 hact).2 (fun _ hne => by cases hne) (fun hne => by cases hne)
      exact ⟨h1.trans hs, h2, h3⟩
    | cancel =>
      obtain ⟨h1, h2, h3, _⟩ :=
        (act_frame _ w w1 hact).2 (fun _ hne => by cases hne) (fun hne => by cases hne)
      exact ⟨h1.trans hs, h2, h3⟩

/-- Witness of C16: Run is called on a fresh broker, the context is cancelled and the loop takes
the cancellation case; in the state reached the loop is stopped, `done` is closed and the context
is cancelled, and a later SendMessage leaves the loop stopped and the channels untouched. -/
theorem stopped_only_after_cancel_witness :
    stoppedWorld.loop = LoopState.stopped ∧ stoppedWorld.broker.done = true ∧
    stoppedWorld.broker.ctx = true ∧
    runIter Pick.case1 stoppedWorld = none ∧
    act (Action.send Pick.case0 msgPsst) stoppedWorld = some stoppedWorld :=
  ⟨rfl, rfl, (stopped_only_after_cancel.1 stoppedWorld reachable_stoppedWorld).1 rfl,
    (stopped_only_after_cancel.2.2 stoppedWorld rfl).1 Pick.case1, rfl⟩

end Chatcore

namespace Taskmanager

/-! ## Lemmas on the task map -/

theorem length_eq_zero_iff (s : String) : s.length = 0 ↔ s = "" := by
  constructor
  · intro h
    cases s with
    | mk data =>
      have hd : data = [] := List.length_eq_zero.1 h
      subst hd
      rfl
  · intro h
    subst h
    rfl

theorem getEntries_mem {l : List (Int × Task)} {key : Int} {t : Task}
    (h : getEntries l key = some t) : (key, t) ∈ l := by
  induction l with
  | nil => simp [getEntries] at h
  | cons p rest ih =>
    obtain ⟨k, v⟩ := p
    by_cases hk : k = key
    · simp [getEntries, hk] at h
      simp [hk, h]
    · simp [getEntries, hk] at h
      exact List.mem_cons_of_mem _ (ih h)

theorem getEntries_of_mem {l : List (Int × Task)} {key : Int} {t : Task}
    (hnd : (l.map Prod.fst).Nodup) (h : (key, t) ∈ l) : getEntries l key = some t := by
  induction l with
  | nil => simp at h
  | cons p rest ih =>
    obtain ⟨k, v⟩ := p
    rw [List.map_cons, List.nodup_cons] at hnd
    rcases List.mem_cons.1 h with heq | hmem
    · cases heq
      simp [getEntries]
    · have hk : k ≠ key := by
        intro hk
        apply hnd.1
        rw [hk]
        exact List.mem_map.2 ⟨(key, t), hmem, rfl⟩
      simp [getEntries, hk]
      exact ih hnd.2 hmem

theorem getEntries_none_iff (l : List (Int × Task)) (key : Int) :
    getEntries l key = none ↔ ∀ p ∈ l, p.1 ≠ key := by
  induction l with
  | nil => simp [getEntries]
  | cons p rest ih =>
    obtain ⟨k, v⟩ := p
    by_cases hk : k = key
    · simp [getEntries, hk]
    · simp [getEntries, hk, ih]

theorem deleteEntries_cons_self (key : Int) (v : Task) (rest : List (Int × Task)) :
    deleteEntries key ((key, v) :: rest) = deleteEntries key rest := by
  simp [deleteEntries]

theorem deleteEntries_cons_ne {key k : Int} (h : k ≠ key) (v : Task)
    (rest : List (Int × Task)) :
    deleteEntries key ((k, v) :: rest) = (k, v) :: deleteEntries key rest := by
  simp [deleteEntries, h]

theorem mem_deleteEntries {key : Int} {l : List (Int × Task)} {p : Int × Task}
    (h : p ∈ deleteEntries key l) : p ∈ l ∧ p.1 ≠ key := by
  have := List.mem_filter.1 h
  exact ⟨this.1, by simpa using this.2⟩

theorem getEntries_delete_self (key : Int) (l : List (Int × Task)) :
    getEntries (deleteEntries key l) key = none := by
  rw [getEntries_none_iff]
  intro p hp
  exact (mem_deleteEntries hp).2

theorem getEntries_delete_ne {key other : Int} (h : other ≠ key) (l : List (Int × Task)) :
    getEntries (deleteEntries key l) other = getEntries l other := by
  induction l with
  | nil => rfl
  | cons p rest ih =>
    obtain ⟨k, v⟩ := p
    by_cases hk : k = key
    · subst hk
      rw [deleteEntries_cons_self, ih]
      have hko : ¬ k = other := fun h2 => h h2.symm
      simp [getEntries, hko]
    · rw [deleteEntries_cons_ne hk]
      simp only [getEntries, ih]

theorem TaskMap.get_set_self (m : TaskMap) (key : Int) (t : Task) :
    (m.set key t).get key = some t := by
  simp [TaskMap.get, TaskMap.set, getEntries]

theorem TaskMap.get_set_ne (m : TaskMap) {key other : Int} (t : Task) (h : other ≠ key) :
    (m.set key t).get other = m.get other := by
  have h2 : ¬ key = other := fun h3 => h h3.symm
  simp [TaskMap.get, TaskMap.set, getEntries, h2, getEntries_delete_ne h]

theorem TaskMap.get_delete_self (m : TaskMap) (key : Int) : (m.delete key).get key = none := by
  simp [TaskMap.get, TaskMap.delete, getEntries_delete_self]

theorem TaskMap.get_delete_ne (m : TaskMap) {key other : Int} (h : other ≠ key) :
    (m.delete key).get other = m.get other := by
  simp [TaskMap.get, TaskMap.delete, getEntries_delete_ne h]

/-! ## Lemmas on the operations -/

theorem AddTask_empty (now : Int) (tm : TaskManager) (description : String) :
    AddTask now tm "" description = ((Task.zero, some ErrEmptyTitle), tm) := by
  rfl

theorem AddTask_ok (now : Int) (tm : TaskManager) (title description : String)
    (h : title ≠ "") :
    AddTask now tm title description
      = (({ ID := tm.nextID, Title := title, Description := description, Done := false,
            CreatedAt := now }, none),
          { tasks := tm.tasks.set tm.nextID
              { ID := tm.nextID, Title := title, Description := description, Done := false,
                CreatedAt := now },
            nextID := tm.nextID + 1 }) := by
  have hl : ¬ title.length = 0 := fun hl => h ((length_eq_zero_iff title).1 hl)
  simp [AddTask, hl]

theorem UpdateTask_empty (tm : TaskManager) (id : Int) (description : String) (done : Bool) :
    UpdateTask tm id "" description done = (some ErrEmptyTitle, tm) := by
  rfl

theorem UpdateTask_absent (tm : TaskManager) (id : Int) (title description : String)
    (done : Bool) (h : title ≠ "") (hget : tm.tasks.get id = none) :
    UpdateTask tm id title description done = (some ErrTaskNotFound, tm) := by
  have hl : ¬ title.length = 0 := fun hl => h ((length_eq_zero_iff title).1 hl)
  simp [UpdateTask, hl, hget]

theorem UpdateTask_ok (tm : TaskManager) (id : Int) (title description : String)
    (done : Bool) (h : title ≠ "") {task : Task} (hget : tm.tasks.get id = some task) :
    UpdateTask tm id title description done
      = (none, { tm with
          tasks := tm.tasks.set id
            { task with Title := title, Description := description, Done := done } }) := by
  have hl : ¬ title.length = 0 := fun hl => h ((length_eq_zero_iff title).1 hl)
  simp [UpdateTask, hl, hget]

/-- A loop that keeps the ID of the tasks whose ID is `id`: without such a task the start value
is left. -/
theorem foldl_scan_none {f : Int → Int × Task → Int} (id : Int)
    (hf : ∀ acc p, f acc p = if p.2.ID = id then p.2.ID else acc)
    (l : List (Int × Task)) (init : Int) (h : ∀ p ∈ l, p.2.ID ≠ id) :
    l.foldl f init = init := by
  induction l generalizing init with
  | nil => rfl
  | cons p rest ih =>
    rw [List.foldl_cons, hf, if_neg (h p (List.mem_cons_self _ _))]
    exact ih init (fun q hq => h q (List.mem_cons_of_mem _ hq))

/-- A loop that keeps the ID of the tasks whose ID is `id`: with such a task the result is `id`. -/
theorem foldl_scan_some {f : Int → Int × Task → Int} (id : Int)
    (hf : ∀ acc p, f acc p = if p.2.ID = id then p.2.ID else acc)
    (l : List (Int × Task)) (init : Int) (h : ∃ p ∈ l, p.2.ID = id) :
    l.foldl f init = id := by
  induction l generalizing init with
  | nil => simp at h
  | cons p rest ih =>
    rw [List.foldl_cons]
    by_cases hrest : ∃ q ∈ rest, q.2.ID = id
    · exact ih _ hrest
    · have hp : p.2.ID = id := by
        obtain ⟨q, hq, hqid⟩ := h
        rcases List.mem_cons.1 hq with heq | hmem
        · rw [← heq]
          exact hqid
        · exact absurd ⟨q, hmem, hqid⟩ hrest
      rw [hf, if_pos hp, hp]
      apply foldl_scan_none id hf
      intro q hq hqid
      exact hrest ⟨q, hq, hqid⟩

/-- On a manager whose tasks carry their key as ID, the scan of GetTask finds what the map read
finds. -/
theorem GetTask_eq_byKey (tm : TaskManager) (hwk : WellKeyed tm) (id : Int) :
    GetTask tm id = GetTaskByKey tm id := by
  cases hget : tm.tasks.get id with
  | none =>
    have hnone : ∀ p ∈ tm.tasks.entries, p.2.ID ≠ id := by
      intro p hp
      rw [(hwk p hp).1]
      exact (getEntries_none_iff _ _).1 hget p hp
    unfold GetTask GetTaskByKey
    rw [foldl_scan_none id ?_ tm.tasks.entries (-1) hnone, hget]
    · simp
    · intro acc p
      rfl
  | some t =>
    have hmem : (id, t) ∈ tm.tasks.entries := getEntries_mem hget
    have hsome : ∃ p ∈ tm.tasks.entries, p.2.ID = id := ⟨(id, t), hmem, (hwk _ hmem).1⟩
    have hpos : id ≠ -1 := by
      have := (hwk _ hmem).2.1
      simp only at this
      omega
    unfold GetTask GetTaskByKey
    rw [foldl_scan_some id ?_ tm.tasks.entries (-1) hsome]
    · simp [hpos, hget]
    · intro acc p
      rfl

theorem UpdateTask_cases (tm : TaskManager) (id : Int) (title description : String)
    (done : Bool) :
    UpdateTask tm id title description done = (some ErrEmptyTitle, tm) ∨
    UpdateTask tm id title description done = (some ErrTaskNotFound, tm) ∨
    ∃ task, title ≠ "" ∧ tm.tasks.get id = some task ∧
      UpdateTask tm id title description done
        = (none, { tm with
            tasks := tm.tasks.set id
              { task with Title := title, Description := description, Done := done } }) := by
  by_cases h : title = ""
  · subst h
    exact Or.inl (UpdateTask_empty tm id description done)
  · rcases Option.eq_none_or_eq_some (tm.tasks.get id) with hget | ⟨task, hget⟩
    · exact Or.inr (Or.inl (UpdateTask_absent tm id title description done h hget))
    · exact Or.inr (Or.inr ⟨task, h, hget, UpdateTask_ok tm id title description done h hget⟩)

theorem DeleteTask_cases (tm : TaskManager) (id : Int) :
    DeleteTask tm id = (some ErrTaskNotFound, tm) ∨
    ∃ k, DeleteTask tm id = (none, { tm with tasks := tm.tasks.delete k }) := by
  unfold DeleteTask
  simp only []
  split
  · exact Or.inl rfl
  · exact Or.inr ⟨_, rfl⟩

/-! ## The invariant of the reachable managers -/

theorem wellKeyed_set (tm : TaskManager) (hwk : WellKeyed tm) (k : Int) (t : Task) (n : Int)
    (hid : t.ID = k) (hlow : 1 ≤ k) (hk : k < n) (hn : tm.nextID ≤ n) :
    WellKeyed { tasks := tm.tasks.set k t, nextID := n } := by
  intro p hp
  rcases List.mem_cons.1 hp with heq | hmem
  · subst heq
    exact ⟨hid, hlow, hk⟩
  · obtain ⟨h1, h2, h3⟩ := hwk p (mem_deleteEntries hmem).1
    exact ⟨h1, h2, lt_of_lt_of_le h3 hn⟩

theorem wellKeyed_delete (tm : TaskManager) (hwk : WellKeyed tm) (k : Int) :
    WellKeyed { tm with tasks := tm.tasks.delete k } := by
  intro p hp
  exact hwk p (mem_deleteEntries hp).1

/-- Invariant of the reachable managers: every stored task carries its key as ID, the keys lie
between 1 and nextID - 1, and the successful AddTask calls have returned 1, 2, ..., nextID - 1 in
this order. -/
theorem reached_inv {tm : TaskManager} {ids : List Int} (h : Reached tm ids) :
    WellKeyed tm ∧ tm.nextID = (ids.length : Int) + 1 ∧
    ids = (List.range ids.length).map (fun (i : Nat) => (i : Int) + 1) := by
  induction h with
  | new =>
    refine ⟨?_, rfl, rfl⟩
    intro p hp
    simp [NewTaskManager, TaskMap.empty] at hp
  | @add tm ids now title description _ ih =>
    obtain ⟨hwk, hnext, hids⟩ := ih
    by_cases ht : title = ""
    · subst ht
      rw [AddTask_empty]
      exact ⟨hwk, hnext, hids⟩
    · rw [AddTask_ok now tm title description ht]
      have hlow : 1 ≤ tm.nextID := by omega
      refine ⟨wellKeyed_set tm hwk _ _ _ rfl hlow (by omega) (by omega), ?_, ?_⟩
      · simp [returnedIds, hnext]
      · simp only [returnedIds, List.length_append, List.length_singleton, List.range_succ,
          List.map_append, List.map_singleton]
        rw [← hids, hnext]
  | @update tm ids id title description done _ ih =>
    obtain ⟨hwk, hnext, hids⟩ := ih
    rcases UpdateTask_cases tm id title description done with h1 | h1 | ⟨task, _, hget, h1⟩
    · rw [h1]
      exact ⟨hwk, hnext, hids⟩
    · rw [h1]
      exact ⟨hwk, hnext, hids⟩
    · rw [h1]
      obtain ⟨hid, hlow, hk⟩ := hwk _ (getEntries_mem hget)
      exact ⟨wellKeyed_set tm hwk id _ tm.nextID hid hlow hk (le_refl _), hnext, hids⟩
  | @delete tm ids id _ ih =>
    obtain ⟨hwk, hnext, hids⟩ := ih
    rcases DeleteTask_cases tm id with h1 | ⟨k, h1⟩
    · rw [h1]
      exact ⟨hwk, hnext, hids⟩
    · rw [h1]
      exact ⟨wellKeyed_delete tm hwk k, hnext, hids⟩
  | @reorder tm tm1 ids _ hperm hnextID ih =>
    obtain ⟨hwk, hnext, hids⟩ := ih
    refine ⟨?_, by rw [hnextID]; exact hnext, hids⟩
    intro p hp
    have := hwk p (hperm.subset hp)
    rw [hnextID]
    exact this

/-! ## Lemmas on ListTasks and on the returned ids -/

/-- A loop that appends the tasks kept by the filter returns the kept tasks in visiting order. -/
theorem foldl_keep {f : List Task → Int × Task → List Task} (filterDone : Option Bool)
    (hf : ∀ acc p, f acc p = if matchesFilter filterDone p.2 = true then acc ++ [p.2] else acc)
    (l : List (Int × Task)) (init : List Task) :
    l.foldl f init = init ++ (l.map Prod.snd).filter (matchesFilter filterDone) := by
  induction l generalizing init with
  | nil => simp
  | cons p rest ih =>
    rw [List.foldl_cons, ih, hf]
    by_cases hm : matchesFilter filterDone p.2 = true
    · simp [hm, List.filter_cons]
    · simp [hm, List.filter_cons]

theorem ListTasks_eq (tm : TaskManager) (filterDone : Option Bool) :
    ListTasks tm filterDone
      = ((tm.tasks.entries.map Prod.snd).filter (matchesFilter filterDone), tm) := by
  unfold ListTasks
  rw [foldl_keep filterDone ?_ tm.tasks.entries []]
  · simp
  · intro acc p
    cases filterDone with
    | none => simp [matchesFilter]
    | some b => simp [matchesFilter]

theorem mem_values_iff (m : TaskMap) (t : Task) :
    t ∈ m.entries.map Prod.snd ↔ ∃ k, m.get k = some t := by
  constructor
  · intro h
    obtain ⟨p, hp, hpt⟩ := List.mem_map.1 h
    obtain ⟨k, v⟩ := p
    cases hpt
    exact ⟨k, getEntries_of_mem m.nodupKeys hp⟩
  · intro h
    obtain ⟨k, hk⟩ := h
    exact List.mem_map.2 ⟨(k, t), getEntries_mem hk, rfl⟩

/-- On a manager whose tasks carry their key as ID no task value is stored twice. -/
theorem nodup_values (tm : TaskManager) (hwk : WellKeyed tm) :
    (tm.tasks.entries.map Prod.snd).Nodup := by
  have hkeys : tm.tasks.entries.map Prod.fst
      = (tm.tasks.entries.map Prod.snd).map Task.ID := by
    rw [List.map_map]
    apply List.map_congr_left
    intro p hp
    exact ((hwk p hp).1).symm
  have hnd := tm.tasks.nodupKeys
  rw [hkeys] at hnd
  exact List.Nodup.of_map Task.ID hnd

theorem GetTaskByKey_fst {tm1 tm2 : TaskManager} {j : Int}
    (h : tm1.tasks.get j = tm2.tasks.get j) :
    (GetTaskByKey tm1 j).1 = (GetTaskByKey tm2 j).1 := by
  unfold GetTaskByKey
  rw [h]
  cases tm2.tasks.get j <;> rfl

theorem get_nextID_none (tm : TaskManager) (hwk : WellKeyed tm) :
    tm.tasks.get tm.nextID = none := by
  rw [TaskMap.get, getEntries_none_iff]
  intro p hp
  have := (hwk p hp).2.2
  omega

theorem pairwise_lt_ids (n : Nat) :
    ((List.range n).map (fun (i : Nat) => (i : Int) + 1)).Pairwise (fun a b => a < b) := by
  apply List.Pairwise.map _ _ (List.pairwise_lt_range n)
  intro a b hab
  omega

theorem not_mem_ids (n : Nat) :
    ((n : Int) + 1) ∉ (List.range n).map (fun (i : Nat) => (i : Int) + 1) := by
  intro h
  obtain ⟨i, hi, hin⟩ := List.mem_map.1 h
  have := List.mem_range.1 hi
  omega

theorem reached_twoTasks : Reached twoTasks [1, 2] :=
  Reached.add 20 "b" "second" (Reached.add 10 "a" "first" Reached.new)

theorem reached_oneTask : Reached oneTask [1] :=
  Reached.add 10 "a" "first" Reached.new

/-! ## The claims -/

/-- C13: AddTask returns ErrEmptyTitle exactly when the title is the empty string, and then it
returns the zero Task and leaves the manager (the stored tasks and nextID) as it was.  For every
other title it returns nil and the task with this title and description, Done false, the time of
the call and the ID that nextID had before the call; this task is then stored under that key, the
other keys are as before, and nextID is one larger. -/
theorem add_task_contract (now : Int) (tm : TaskManager) (title description : String) :
    ((AddTask now tm title description).1.2 = some ErrEmptyTitle ↔ title = "") ∧
    (title = "" → AddTask now tm title description = ((Task.zero, some ErrEmptyTitle), tm)) ∧
    (title ≠ "" →
      (AddTask now tm title description).1
        = ({ ID := tm.nextID, Title := title, Description := description, Done := false,
             CreatedAt := now }, none) ∧
      (AddTask now tm title description).2.nextID = tm.nextID + 1 ∧
      (AddTask now tm title description).2.tasks.get tm.nextID
        = some { ID := tm.nextID, Title := title, Description := description, Done := false,
                 CreatedAt := now } ∧
      ∀ j, j ≠ tm.nextID →
        (AddTask now tm title description).2.tasks.get j = tm.tasks.get j) := by
  refine ⟨?_, ?_, ?_⟩
  · constructor
    · intro h
      by_contra ht
      rw [AddTask_ok now tm title description ht] at h
      simp at h
    · intro ht
      subst ht
      rfl
  · intro ht
    subst ht
    rfl
  · intro ht
    rw [AddTask_ok now tm title description ht]
    exact ⟨rfl, rfl, TaskMap.get_set_self _ _ _, fun j hj => TaskMap.get_set_ne _ _ hj⟩

/-- Witness of C13: on a new manager the empty title is refused and nothing changes; the title
"a" gives the task with ID 1 and nextID becomes 2. -/
theorem add_task_contract_witness :
    AddTask 10 NewTaskManager "" "first"
      = ((Task.zero, some "title cannot be empty"), NewTaskManager) ∧
    (AddTask 10 NewTaskManager "a" "first").1
      = ({ ID := 1, Title := "a", Description := "first", Done := false, CreatedAt := 10 },
          none) ∧
    (AddTask 10 NewTaskManager "a" "first").2.nextID = 2 :=
  ⟨(add_task_contract 10 NewTaskManager "" "first").2.1 rfl,
    ((add_task_contract 10 NewTaskManager "a" "first").2.2 (by decide)).1,
    ((add_task_contract 10 NewTaskManager "a" "first").2.2 (by decide)).2.1⟩

/-- C14: UpdateTask returns ErrEmptyTitle when the title is empty, whether or not `id` is stored;
with a non-empty title it returns ErrTaskNotFound when the map has no entry for `id` and nil when
it has one; whenever it returns an error the manager (the stored tasks and nextID) is as it was. -/
theorem update_task_results (tm : TaskManager) (id : Int) (title description : String)
    (done : Bool) :
    (title = "" → UpdateTask tm id title description done = (some ErrEmptyTitle, tm)) ∧
    (title ≠ "" → tm.tasks.get id = none →
      UpdateTask tm id title description done = (some ErrTaskNotFound, tm)) ∧
    (title ≠ "" → tm.tasks.get id ≠ none →
      (UpdateTask tm id title description done).1 = none) ∧
    (∀ e, (UpdateTask tm id title description done).1 = some e →
      (UpdateTask tm id title description done).2 = tm) := by
  refine ⟨?_, ?_, ?_, ?_⟩
  · intro ht
    subst ht
    rfl
  · intro ht hget
    exact UpdateTask_absent tm id title description done ht hget
  · intro ht hget
    rcases Option.eq_none_or_eq_some (tm.tasks.get id) with hnone | ⟨task, hsome⟩
    · exact absurd hnone hget
    · rw [UpdateTask_ok tm id title description done ht hsome]
  · intro e he
    rcases UpdateTask_cases tm id title description done with h1 | h1 | ⟨task, _, _, h1⟩
    · rw [h1]
    · rw [h1]
    · rw [h1] at he
      simp at he

/-- Witness of C14: with the tasks 1 and 2 stored, an empty title is refused for the stored id 1
and for the absent id 5, a title for the absent id 5 gives ErrTaskNotFound, and a title for the
stored id 1 gives nil. -/
theorem update_task_results_witness :
    UpdateTask twoTasks 1 "" "x" true = (some "title cannot be empty", twoTasks) ∧
    UpdateTask twoTasks 5 "" "x" true = (some "title cannot be empty", twoTasks) ∧
    UpdateTask twoTasks 5 "z" "x" true = (some "task not found", twoTasks) ∧
    (UpdateTask twoTasks 1 "z" "x" true).1 = none :=
  ⟨(update_task_results twoTasks 1 "" "x" true).1 rfl,
    (update_task_results twoTasks 5 "" "x" true).1 rfl,
    (update_task_results twoTasks 5 "z" "x" true).2.1 (by decide) (by decide),
    (update_task_results twoTasks 1 "z" "x" true).2.2.1 (by decide) (by decide)⟩

/-- C17: on every manager reached from NewTaskManager by AddTask, UpdateTask and DeleteTask calls,
GetTask, which scans the tasks for the ID, gives what the direct lookup of the key gives: the
stored task and nil when the key is present, the zero Task and ErrTaskNotFound when it is absent;
and the manager after the call is the manager before. -/
theorem get_task_refines_lookup {tm : TaskManager} {ids : List Int} (h : Reached tm ids)
    (id : Int) :
    GetTask tm id = GetTaskByKey tm id ∧
    (∀ task, tm.tasks.get id = some task → GetTask tm id = ((task, none), tm)) ∧
    (tm.tasks.get id = none → GetTask tm id = ((Task.zero, some ErrTaskNotFound), tm)) ∧
    (GetTask tm id).2 = tm := by
  have heq := GetTask_eq_byKey tm (reached_inv h).1 id
  refine ⟨heq, ?_, ?_, ?_⟩
  · intro task hget
    rw [heq]
    simp [GetTaskByKey, hget]
  · intro hget
    rw [heq]
    simp [GetTaskByKey, hget]
  · rw [heq]
    unfold GetTaskByKey
    split <;> rfl

/-- Witness of C17: with the tasks 1 and 2 stored, GetTask finds task 2 and does not find 3. -/
theorem get_task_refines_lookup_witness :
    GetTask twoTasks 2
      = (({ ID := 2, Title := "b", Description := "second", Done := false, CreatedAt := 20 },
          none), twoTasks) ∧
    GetTask twoTasks 3 = ((Task.zero, some "task not found"), twoTasks) :=
  ⟨(get_task_refines_lookup reached_twoTasks 2).2.1 _ (by decide),
    (get_task_refines_lookup reached_twoTasks 3).2.2.1 (by decide)⟩

/-- C15: ListTasks returns the stored tasks that the filter keeps (all of them for a nil filter,
those whose Done equals the value pointed to otherwise), one element per map entry, in the order
in which the map is visited, and leaves the manager as it was.  A task is in the result exactly
when it is stored under some key and kept by the filter, and it occurs as often as it is stored;
on a reachable manager no task occurs twice.  Visiting the map in another order permutes the
result.  The result is empty when no stored task is kept. -/
theorem list_tasks_contract (tm : TaskManager) (filterDone : Option Bool) :
    (ListTasks tm filterDone).2 = tm ∧
    (ListTasks tm filterDone).1
      = (tm.tasks.entries.map Prod.snd).filter (matchesFilter filterDone) ∧
    (ListTasks tm none).1 = tm.tasks.entries.map Prod.snd ∧
    (∀ t, t ∈ (ListTasks tm none).1 ↔ ∃ k, tm.tasks.get k = some t) ∧
    (∀ b t, t ∈ (ListTasks tm (some b)).1 ↔ (∃ k, tm.tasks.get k = some t) ∧ t.Done = b) ∧
    (∀ t, matchesFilter filterDone t = true →
      (ListTasks tm filterDone).1.count t = (tm.tasks.entries.map Prod.snd).count t) ∧
    (∀ ids, Reached tm ids → (ListTasks tm filterDone).1.Nodup) ∧
    (∀ tm1 : TaskManager, tm1.tasks.entries.Perm tm.tasks.entries →
      (ListTasks tm1 filterDone).1.Perm (ListTasks tm filterDone).1) ∧
    ((∀ k t, tm.tasks.get k = some t → matchesFilter filterDone t = false) →
      (ListTasks tm filterDone).1 = []) := by
  refine ⟨?_, ?_, ?_, ?_, ?_, ?_, ?_, ?_, ?_⟩
  · rw [ListTasks_eq]
  · rw [ListTasks_eq]
  · rw [ListTasks_eq]
    simp [matchesFilter]
  · intro t
    rw [ListTasks_eq, ← mem_values_iff]
    simp [matchesFilter]
  · intro b t
    rw [ListTasks_eq, ← mem_values_iff]
    simp [matchesFilter]
  · intro t ht
    rw [ListTasks_eq]
    exact List.count_filter ht
  · intro ids h
    rw [ListTasks_eq]
    exact (nodup_values tm (reached_inv h).1).filter _
  · intro tm1 hperm
    rw [ListTasks_eq, ListTasks_eq]
    exact (hperm.map Prod.snd).filter _
  · intro hnone
    rw [ListTasks_eq]
    apply List.filter_eq_nil_iff.2
    intro t ht
    obtain ⟨k, hk⟩ := (mem_values_iff tm.tasks t).1 ht
    rw [hnone k t hk]
    simp

/-- Witness of C15: with the tasks 1 and 2 stored, both not done, the nil filter and the filter
for false give both tasks and the filter for true gives nothing. -/
theorem list_tasks_contract_witness :
    (ListTasks twoTasks none).1.length = 2 ∧
    (ListTasks twoTasks (some false)).1.Nodup ∧
    (ListTasks twoTasks (some true)).1 = [] ∧
    (ListTasks twoTasks (some true)).2 = twoTasks := by
  refine ⟨?_, (list_tasks_contract twoTasks (some false)).2.2.2.2.2.2.1 _ reached_twoTasks,
    (list_tasks_contract twoTasks (some true)).2.2.2.2.2.2.2.2 ?_,
    (list_tasks_contract twoTasks (some true)).1⟩
  · rw [(list_tasks_contract twoTasks none).2.2.1]
    decide
  · intro k t hget
    have hmem := getEntries_mem hget
    have hent : twoTasks.tasks.entries
        = [(2, { ID := 2, Title := "b", Description := "second", Done := false,
                 CreatedAt := 20 }),
           (1, { ID := 1, Title := "a", Description := "first", Done := false,
                 CreatedAt := 10 })] := by
      decide
    rw [hent] at hmem
    simp at hmem
    rcases hmem with ⟨_, ht⟩ | ⟨_, ht⟩ <;> subst ht <;> rfl

/-- C18: on a reachable manager, after an UpdateTask that returned nil, GetTask of the same id
returns nil and the task that was stored under `id` with Title, Description and Done replaced by
the given values, its ID (which is `id`) and CreatedAt as before; every other key holds the task
it held before, GetTask of every other id returns what it returned before, and nextID is
unchanged. -/
theorem update_then_get {tm : TaskManager} {ids : List Int} (h : Reached tm ids) (id : Int)
    (title description : String) (done : Bool)
    (hok : (UpdateTask tm id title description done).1 = none) :
    ∃ old, tm.tasks.get id = some old ∧ (GetTask tm id).1 = (old, none) ∧ old.ID = id ∧
      (GetTask (UpdateTask tm id title description done).2 id).1
        = ({ ID := old.ID, Title := title, Description := description, Done := done,
             CreatedAt := old.CreatedAt }, none) ∧
      (∀ j, j ≠ id →
        (UpdateTask tm id title description done).2.tasks.get j = tm.tasks.get j ∧
        (GetTask (UpdateTask tm id title description done).2 j).1 = (GetTask tm j).1) ∧
      (UpdateTask tm id title description done).2.nextID = tm.nextID := by
  have hwk := (reached_inv h).1
  have hwk1 := (reached_inv (Reached.update id title description done h)).1
  rcases UpdateTask_cases tm id title description done with h1 | h1 | ⟨task, _, hget, h1⟩
  · rw [h1] at hok
    simp at hok
  · rw [h1] at hok
    simp at hok
  · refine ⟨task, hget, ?_, (hwk _ (getEntries_mem hget)).1, ?_, ?_, ?_⟩
    · rw [GetTask_eq_byKey tm hwk id]
      simp [GetTaskByKey, hget]
    · rw [GetTask_eq_byKey _ hwk1 id]
      have hnew : (UpdateTask tm id title description done).2.tasks.get id
          = some { task with Title := title, Description := description, Done := done } := by
        rw [h1]
        exact TaskMap.get_set_self _ _ _
      simp [GetTaskByKey, hnew]
    · intro j hj
      have hsame : (UpdateTask tm id title description done).2.tasks.get j = tm.tasks.get j := by
        rw [h1]
        exact TaskMap.get_set_ne _ _ hj
      refine ⟨hsame, ?_⟩
      rw [GetTask_eq_byKey _ hwk1 j, GetTask_eq_byKey tm hwk j]
      exact GetTaskByKey_fst hsame
    · rw [h1]

/-- Witness of C18: with the tasks 1 and 2 stored, task 1 is updated; GetTask(1) returns the new
fields with the old ID and time, and GetTask(2) returns task 2 as before. -/
theorem update_then_get_witness :
    (UpdateTask twoTasks 1 "z" "x" true).1 = none ∧
    (GetTask (UpdateTask twoTasks 1 "z" "x" true).2 1).1
      = ({ ID := 1, Title := "z", Description := "x", Done := true, CreatedAt := 10 }, none) ∧
    (GetTask (UpdateTask twoTasks 1 "z" "x" true).2 2).1 = (GetTask twoTasks 2).1 := by
  obtain ⟨old, hold, _, _, hget, hother, _⟩ :=
    update_then_get reached_twoTasks 1 "z" "x" true (by decide)
  have hold2 : old
      = { ID := 1, Title := "a", Description := "first", Done := false, CreatedAt := 10 } := by
    have h2 : twoTasks.tasks.get 1
        = some { ID := 1, Title := "a", Description := "first", Done := false,
                 CreatedAt := 10 } := by
      decide
    rw [h2] at hold
    exact (Option.some.inj hold).symm
  subst hold2
  exact ⟨by decide, hget, (hother 2 (by decide)).2⟩

/-- C19: on a reachable manager an AddTask with a non-empty title returns nil, and GetTask of the
returned ID returns exactly the returned task; every task stored before is still stored under its
key and GetTask still returns it.  The ids returned so far by the successful AddTask calls were
1, 2, ..., n in this order, the new task gets n + 1, so the returned ids are strictly increasing;
the new ID was never returned before and is not a key of the map, whatever UpdateTask and
DeleteTask calls came in between. -/
theorem add_then_get_fresh {tm : TaskManager} {ids : List Int} (h : Reached tm ids)
    (now : Int) (title description : String) (ht : title ≠ "") :
    (AddTask now tm title description).1.2 = none ∧
    (GetTask (AddTask now tm title description).2 (AddTask now tm title description).1.1.ID).1
      = ((AddTask now tm title description).1.1, none) ∧
    (∀ j t, tm.tasks.get j = some t →
      (AddTask now tm title description).2.tasks.get j = some t ∧
      (GetTask (AddTask now tm title description).2 j).1 = (t, none)) ∧
    ids = (List.range ids.length).map (fun (i : Nat) => (i : Int) + 1) ∧
    (AddTask now tm title description).1.1.ID = (ids.length : Int) + 1 ∧
    returnedIds ids (AddTask now tm title description).1
      = (List.range (ids.length + 1)).map (fun (i : Nat) => (i : Int) + 1) ∧
    (returnedIds ids (AddTask now tm title description).1).Pairwise (fun a b => a < b) ∧
    (AddTask now tm title description).1.1.ID ∉ ids ∧
    tm.tasks.get (AddTask now tm title description).1.1.ID = none := by
  obtain ⟨hwk, hnext, hids⟩ := reached_inv h
  have h1 := Reached.add now title description h
  obtain ⟨hwk1, _, hids1⟩ := reached_inv h1
  have hlen : (returnedIds ids (AddTask now tm title description).1).length = ids.length + 1 := by
    rw [AddTask_ok now tm title description ht]
    simp [returnedIds]
  rw [hlen] at hids1
  have hfresh := get_nextID_none tm hwk
  have hid : (AddTask now tm title description).1.1.ID = tm.nextID := by
    rw [AddTask_ok now tm title description ht]
  have hstored : (AddTask now tm title description).2.tasks.get tm.nextID
      = some (AddTask now tm title description).1.1 := by
    rw [AddTask_ok now tm title description ht]
    exact TaskMap.get_set_self _ _ _
  refine ⟨?_, ?_, ?_, hids, ?_, hids1, ?_, ?_, ?_⟩
  · rw [AddTask_ok now tm title description ht]
  · rw [GetTask_eq_byKey _ hwk1, hid]
    simp [GetTaskByKey, hstored]
  · intro j t hget
    have hj : j ≠ tm.nextID := by
      intro hj
      rw [hj, hfresh] at hget
      simp at hget
    have hsame : (AddTask now tm title description).2.tasks.get j = some t := by
      rw [AddTask_ok now tm title description ht]
      rw [← hget]
      exact TaskMap.get_set_ne _ _ hj
    refine ⟨hsame, ?_⟩
    rw [GetTask_eq_byKey _ hwk1]
    simp [GetTaskByKey, hsame]
  · rw [hid, hnext]
  · rw [hids1]
    exact pairwise_lt_ids _
  · have hnot := not_mem_ids ids.length
    rw [← hids] at hnot
    rw [hid, hnext]
    exact hnot
  · rw [hid]
    exact hfresh

/-- Witness of C19: with the tasks 1 and 2 stored, task 1 is deleted and a task is added; it gets
the ID 3, and GetTask(3) returns it. -/
theorem add_then_get_fresh_witness :
    (AddTask 30 (DeleteTask twoTasks 2).2 "c" "third").1.1.ID = 3 ∧
    (GetTask (AddTask 30 (DeleteTask twoTasks 2).2 "c" "third").2 3).1
      = ({ ID := 3, Title := "c", Description := "third", Done := false, CreatedAt := 30 },
          none) := by
  obtain ⟨_, hget, _, _, hid, _⟩ :=
    add_then_get_fresh (Reached.delete 2 reached_twoTasks) 30 "c" "third" (by decide)
  have hid3 : (AddTask 30 (DeleteTask twoTasks 2).2 "c" "third").1.1.ID = 3 := by
    rw [hid]
    rfl
  rw [hid3] at hget
  exact ⟨hid3, hget⟩

/-- What DeleteTask does on a manager whose tasks carry their key as ID: without any task it
returns ErrTaskNotFound; otherwise it returns nil and deletes the task that the loop visits last,
whatever `id` is. -/
theorem DeleteTask_wellKeyed (tm : TaskManager) (hwk : WellKeyed tm) (id : Int) :
    (tm.tasks.entries = [] → DeleteTask tm id = (some ErrTaskNotFound, tm)) ∧
    (∀ l k t, tm.tasks.entries = l ++ [(k, t)] →
      DeleteTask tm id = (none, { tm with tasks := tm.tasks.delete k })) := by
  constructor
  · intro hnil
    unfold DeleteTask
    rw [hnil]
    rfl
  · intro l k t hl
    have hmem : (k, t) ∈ tm.tasks.entries := by
      rw [hl]
      simp
    obtain ⟨hid, hlow, _⟩ := hwk _ hmem
    have hk : k ≠ -1 := by
      simp only at hlow
      omega
    unfold DeleteTask
    rw [hl, List.foldl_append]
    simp only at hid
    simp [hid, hk]

/-- C11, the code at a failing input: the tasks 1 and 2 are stored, and the loop of DeleteTask
visits task 1 last.  DeleteTask(2) returns nil, but afterwards GetTask(2) still returns task 2 and
GetTask(1) returns ErrTaskNotFound: task 1 has been removed instead.  The call does the same for
every argument. -/
theorem delete_task_removes_last_visited :
    (GetTask twoTasks 1).1
      = ({ ID := 1, Title := "a", Description := "first", Done := false, CreatedAt := 10 },
          none) ∧
    (GetTask twoTasks 2).1
      = ({ ID := 2, Title := "b", Description := "second", Done := false, CreatedAt := 20 },
          none) ∧
    (DeleteTask twoTasks 2).1 = none ∧
    (GetTask (DeleteTask twoTasks 2).2 2).1
      = ({ ID := 2, Title := "b", Description := "second", Done := false, CreatedAt := 20 },
          none) ∧
    (GetTask (DeleteTask twoTasks 2).2 1).1 = (Task.zero, some "task not found") ∧
    ∀ i, DeleteTask twoTasks i = DeleteTask twoTasks 2 := by
  refine ⟨by decide, by decide, by decide, by decide, by decide, ?_⟩
  intro i
  rfl

/-- C12, the code at a failing input: only task 1 is stored and 7 was never issued.
DeleteTask(7) returns nil instead of ErrTaskNotFound and removes task 1, the only stored task. -/
theorem delete_task_unknown_id_succeeds :
    oneTask.tasks.get 7 = none ∧
    (GetTask oneTask 7).1 = (Task.zero, some "task not found") ∧
    (GetTask oneTask 1).1
      = ({ ID := 1, Title := "a", Description := "first", Done := false, CreatedAt := 10 },
          none) ∧
    (DeleteTask oneTask 7).1 = none ∧
    (DeleteTask oneTask 7).2.tasks.entries = [] ∧
    (GetTask (DeleteTask oneTask 7).2 1).1 = (Task.zero, some "task not found") := by
  refine ⟨by decide, by decide, by decide, by decide, by decide, by decide⟩

end Taskmanager
